import Mathlib

/-!
Verification of the webgraph-algo-rs specification against its source.

This file gives a shallow embedding, in Lean 4, of the parts of the
webgraph-algo-rs repository that the checked claims are about:

* the argmax and argmin helpers (src/utils/argmax.rs, src/utils/argmin.rs);
* the HyperBall iteration bookkeeping: scheduling-mode flags, the
  neighbourhood-function history, initialisation and the run loop
  (src/algo/hyperball/hyperball_impl.rs);
* the HyperLogLog counter array builder (src/utils/hyper_log_log/
  hyper_log_log_array.rs), the register-wise merge, the word-parallel
  merge_unsafe bit trick and the set_to cache update
  (src/utils/hyper_log_log.rs);
* the ExactSumSweep computer: pivot selection, BFS bound-update steps and
  the AllCCUpperBound step (src/algo/exact_sum_sweep/computer.rs).

Modelling conventions: Rust usize / u64 values become Nat (the checked
code never relies on wrap-around; integer division is Nat division,
matching Rust); IEEE-754 doubles become rationals, keeping the order
structure the claims are about; bit-packed multi-word counter storage is
modelled by the natural number formed by its bits in little-endian word
order, under which the slice-wise AND / OR / XOR of the source are the
corresponding Nat bitwise operations and the multi-word borrow
subtraction is Nat subtraction of the packed values; stateful loops
become explicit folds or recursion over the same data.
-/

set_option maxHeartbeats 1000000

namespace WebgraphAlgo

/-! ## argmax and argmin (src/utils/argmax.rs, src/utils/argmin.rs)

The source scans the slice keeping the current best value and its index,
replacing them only on a strict comparison, so that the earliest index
attaining the optimum is kept.
-/

/-- Loop of argmax: fold over the remaining (index, element) pairs keeping
the best pair, replacing it only when the new element is strictly
greater (the source test is elem > max). -/
def argmaxLoop {α : Type} [LinearOrder α] : List (ℕ × α) → (ℕ × α) → (ℕ × α)
  | [], best => best
  | (i, x) :: rest, (bi, bx) =>
      argmaxLoop rest (if bx < x then (i, x) else (bi, bx))

/-- Model of argmax from src/utils/argmax.rs: None on the empty slice,
otherwise start from index 0 and scan indices 1.. with argmaxLoop. -/
def argmax {α : Type} [LinearOrder α] (vec : List α) : Option ℕ :=
  match vec with
  | [] => none
  | v :: vs => some (argmaxLoop (List.enumFrom 1 vs) (0, v)).1

/-- Loop of argmin: as argmaxLoop with the strict comparison reversed
(the source test is elem < min). -/
def argminLoop {α : Type} [LinearOrder α] : List (ℕ × α) → (ℕ × α) → (ℕ × α)
  | [], best => best
  | (i, x) :: rest, (bi, bx) =>
      argminLoop rest (if x < bx then (i, x) else (bi, bx))

/-- Model of argmin from src/utils/argmin.rs. -/
def argmin {α : Type} [LinearOrder α] (vec : List α) : Option ℕ :=
  match vec with
  | [] => none
  | v :: vs => some (argminLoop (List.enumFrom 1 vs) (0, v)).1

theorem enumFrom_drop_cons {α : Type} (l : List α) (k : ℕ) (x : α) (rest : List α)
    (h : l.drop k = x :: rest) :
    List.enumFrom k (l.drop k) = (k, x) :: List.enumFrom (k + 1) rest := by
  rw [h]; rfl

theorem drop_succ_of_drop_cons {α : Type} (l : List α) (k : ℕ) (x : α) (rest : List α)
    (h : l.drop k = x :: rest) : l.drop (k + 1) = rest := by
  have : l.drop (k + 1) = (l.drop k).drop 1 := by
    rw [List.drop_drop]
  rw [this, h]
  rfl

theorem getD_of_drop_cons {α : Type} (l : List α) (k : ℕ) (x : α) (rest : List α)
    (d : α) (h : l.drop k = x :: rest) : l.getD k d = x := by
  have hk : k < l.length := by
    by_contra hcon
    have : l.drop k = [] := List.drop_eq_nil_of_le (by omega)
    rw [this] at h
    exact List.noConfusion h
  have hc : l.drop k = l[k] :: l.drop (k + 1) := List.drop_eq_getElem_cons hk
  rw [h] at hc
  have hx : x = l[k] := (List.cons.injEq _ _ _ _ ▸ hc).1
  rw [List.getD_eq_getElem l d hk, hx]

theorem length_le_of_drop_nil {α : Type} (l : List α) (k : ℕ)
    (h : l.drop k = []) : l.length ≤ k := by
  have := List.length_drop k l
  rw [h] at this
  simp at this
  omega

/-- Invariant-carrying specification of argmaxLoop when run on the
enumerated tail of a list. -/
theorem argmaxLoop_spec {α : Type} [LinearOrder α] (l : List α) (d : α) :
    ∀ (tl : List α) (k bi : ℕ) (bx : α), l.drop k = tl → k ≤ l.length → bi < k →
      l.getD bi d = bx →
      (∀ j, j < k → l.getD j d ≤ bx) → (∀ j, j < bi → l.getD j d < bx) →
      (argmaxLoop (List.enumFrom k tl) (bi, bx)).1 < l.length ∧
      l.getD (argmaxLoop (List.enumFrom k tl) (bi, bx)).1 d
          = (argmaxLoop (List.enumFrom k tl) (bi, bx)).2 ∧
      (∀ j, j < l.length →
        l.getD j d ≤ (argmaxLoop (List.enumFrom k tl) (bi, bx)).2) ∧
      (∀ j, j < (argmaxLoop (List.enumFrom k tl) (bi, bx)).1 →
        l.getD j d < (argmaxLoop (List.enumFrom k tl) (bi, bx)).2) := by
  intro tl
  induction tl with
  | nil =>
    intro k bi bx hdrop hk hbi hval hle hlt
    have hlen : l.length ≤ k := length_le_of_drop_nil l k hdrop
    simp only [List.enumFrom, argmaxLoop]
    refine ⟨by omega, hval, ?_, ?_⟩
    · intro j hj; exact hle j (by omega)
    · intro j hj; exact hlt j hj
  | cons x rest ih =>
    intro k bi bx hdrop hk hbi hval hle hlt
    have hcons : List.enumFrom k (x :: rest) = (k, x) :: List.enumFrom (k + 1) rest := rfl
    have hdropk : l.drop (k + 1) = rest := drop_succ_of_drop_cons l k x rest hdrop
    have hxval : l.getD k d = x := getD_of_drop_cons l k x rest d hdrop
    have hklen : k < l.length := by
      by_contra hcon
      have : l.drop k = [] := List.drop_eq_nil_of_le (by omega)
      rw [this] at hdrop
      exact List.noConfusion hdrop
    rw [hcons]
    simp only [argmaxLoop]
    by_cases hcmp : bx < x
    · simp only [if_pos hcmp]
      refine ih (k + 1) k x hdropk (by omega) (by omega) hxval ?_ ?_
      · intro j hj
        rcases Nat.lt_or_ge j k with hjk | hjk
        · exact le_of_lt (lt_of_le_of_lt (hle j hjk) hcmp)
        · have : j = k := by omega
          rw [this, hxval]
      · intro j hj
        exact lt_of_le_of_lt (hle j hj) hcmp
    · simp only [if_neg hcmp]
      refine ih (k + 1) bi bx hdropk (by omega) (by omega) hval ?_ hlt
      intro j hj
      rcases Nat.lt_or_ge j k with hjk | hjk
      · exact hle j hjk
      · have : j = k := by omega
        rw [this, hxval]
        exact le_of_not_lt hcmp

/-- Invariant-carrying specification of argminLoop, dual to
argmaxLoop_spec. -/
theorem argminLoop_spec {α : Type} [LinearOrder α] (l : List α) (d : α) :
    ∀ (tl : List α) (k bi : ℕ) (bx : α), l.drop k = tl → k ≤ l.length → bi < k →
      l.getD bi d = bx →
      (∀ j, j < k → bx ≤ l.getD j d) → (∀ j, j < bi → bx < l.getD j d) →
      (argminLoop (List.enumFrom k tl) (bi, bx)).1 < l.length ∧
      l.getD (argminLoop (List.enumFrom k tl) (bi, bx)).1 d
          = (argminLoop (List.enumFrom k tl) (bi, bx)).2 ∧
      (∀ j, j < l.length →
        (argminLoop (List.enumFrom k tl) (bi, bx)).2 ≤ l.getD j d) ∧
      (∀ j, j < (argminLoop (List.enumFrom k tl) (bi, bx)).1 →
        (argminLoop (List.enumFrom k tl) (bi, bx)).2 < l.getD j d) := by
  intro tl
  induction tl with
  | nil =>
    intro k bi bx hdrop hk hbi hval hle hlt
    have hlen : l.length ≤ k := length_le_of_drop_nil l k hdrop
    simp only [List.enumFrom, argminLoop]
    refine ⟨by omega, hval, ?_, ?_⟩
    · intro j hj; exact hle j (by omega)
    · intro j hj; exact hlt j hj
  | cons x rest ih =>
    intro k bi bx hdrop hk hbi hval hle hlt
    have hcons : List.enumFrom k (x :: rest) = (k, x) :: List.enumFrom (k + 1) rest := rfl
    have hdropk : l.drop (k + 1) = rest := drop_succ_of_drop_cons l k x rest hdrop
    have hxval : l.getD k d = x := getD_of_drop_cons l k x rest d hdrop
    have hklen : k < l.length := by
      by_contra hcon
      have : l.drop k = [] := List.drop_eq_nil_of_le (by omega)
      rw [this] at hdrop
      exact List.noConfusion hdrop
    rw [hcons]
    simp only [argminLoop]
    by_cases hcmp : x < bx
    · simp only [if_pos hcmp]
      refine ih (k + 1) k x hdropk (by omega) (by omega) hxval ?_ ?_
      · intro j hj
        rcases Nat.lt_or_ge j k with hjk | hjk
        · exact le_of_lt (lt_of_lt_of_le hcmp (hle j hjk))
        · have : j = k := by omega
          rw [this, hxval]
      · intro j hj
        exact lt_of_lt_of_le hcmp (hle j hj)
    · simp only [if_neg hcmp]
      refine ih (k + 1) bi bx hdropk (by omega) (by omega) hval ?_ hlt
      intro j hj
      rcases Nat.lt_or_ge j k with hjk | hjk
      · exact hle j hjk
      · have : j = k := by omega
        rw [this, hxval]
        exact le_of_not_lt hcmp

/-- The predicate characterising the index returned by argmax: an
in-range index attaining the maximum, strictly above every earlier
entry. -/
def IsFirstArgmax {α : Type} [LinearOrder α] (l : List α) (d : α) (i : ℕ) : Prop :=
  i < l.length ∧ (∀ j, j < l.length → l.getD j d ≤ l.getD i d) ∧
    ∀ j, j < i → l.getD j d < l.getD i d

/-- The predicate characterising the index returned by argmin. -/
def IsFirstArgmin {α : Type} [LinearOrder α] (l : List α) (d : α) (i : ℕ) : Prop :=
  i < l.length ∧ (∀ j, j < l.length → l.getD i d ≤ l.getD j d) ∧
    ∀ j, j < i → l.getD i d < l.getD j d

theorem isFirstArgmax_unique {α : Type} [LinearOrder α] (l : List α) (d : α)
    (i₁ i₂ : ℕ) (h₁ : IsFirstArgmax l d i₁) (h₂ : IsFirstArgmax l d i₂) : i₁ = i₂ := by
  rcases h₁ with ⟨hi₁, hle₁, hlt₁⟩
  rcases h₂ with ⟨hi₂, hle₂, hlt₂⟩
  rcases Nat.lt_trichotomy i₁ i₂ with h | h | h
  · exact absurd (hle₁ i₂ hi₂) (not_le_of_lt (hlt₂ i₁ h))
  · exact h
  · exact absurd (hle₂ i₁ hi₁) (not_le_of_lt (hlt₁ i₂ h))

theorem isFirstArgmin_unique {α : Type} [LinearOrder α] (l : List α) (d : α)
    (i₁ i₂ : ℕ) (h₁ : IsFirstArgmin l d i₁) (h₂ : IsFirstArgmin l d i₂) : i₁ = i₂ := by
  rcases h₁ with ⟨hi₁, hle₁, hlt₁⟩
  rcases h₂ with ⟨hi₂, hle₂, hlt₂⟩
  rcases Nat.lt_trichotomy i₁ i₂ with h | h | h
  · exact absurd (hle₁ i₂ hi₂) (not_le_of_lt (hlt₂ i₁ h))
  · exact h
  · exact absurd (hle₂ i₁ hi₁) (not_le_of_lt (hlt₁ i₂ h))

theorem argmax_isFirstArgmax {α : Type} [LinearOrder α] (l : List α) (d : α)
    (i : ℕ) (h : argmax l = some i) : IsFirstArgmax l d i := by
  match l with
  | [] => exact absurd h (by simp [argmax])
  | v :: vs =>
    have hdrop : (v :: vs).drop 1 = vs := rfl
    have hval : (v :: vs).getD 0 d = v := rfl
    have hspec := argmaxLoop_spec (v :: vs) d vs 1 0 v hdrop
      (by simp) (by omega) hval
      (by intro j hj
          have : j = 0 := by omega
          rw [this, hval])
      (by intro j hj; omega)
    simp only [argmax, Option.some_inj] at h
    refine ⟨?_, ?_, ?_⟩
    · rw [← h]; exact hspec.1
    · intro j hj
      rw [← h]
      rw [hspec.2.1]
      exact hspec.2.2.1 j hj
    · intro j hj
      rw [← h] at hj ⊢
      rw [hspec.2.1]
      exact hspec.2.2.2 j hj

theorem argmin_isFirstArgmin {α : Type} [LinearOrder α] (l : List α) (d : α)
    (i : ℕ) (h : argmin l = some i) : IsFirstArgmin l d i := by
  match l with
  | [] => exact absurd h (by simp [argmin])
  | v :: vs =>
    have hdrop : (v :: vs).drop 1 = vs := rfl
    have hval : (v :: vs).getD 0 d = v := rfl
    have hspec := argminLoop_spec (v :: vs) d vs 1 0 v hdrop
      (by simp) (by omega) hval
      (by intro j hj
          have : j = 0 := by omega
          rw [this, hval])
      (by intro j hj; omega)
    simp only [argmin, Option.some_inj] at h
    refine ⟨?_, ?_, ?_⟩
    · rw [← h]; exact hspec.1
    · intro j hj
      rw [← h]
      rw [hspec.2.1]
      exact hspec.2.2.1 j hj
    · intro j hj
      rw [← h] at hj ⊢
      rw [hspec.2.1]
      exact hspec.2.2.2 j hj

/-- C9: argmax returns None exactly on the empty slice and otherwise the
smallest index attaining the maximum (strict comparison keeps the
earliest index on ties); argmin is the symmetric statement for the
minimum. -/
theorem argmax_argmin_characterisation {α : Type} [LinearOrder α]
    (l : List α) (d : α) :
    (argmax l = none ↔ l = []) ∧ (argmin l = none ↔ l = []) ∧
    (∀ i : ℕ, argmax l = some i ↔ IsFirstArgmax l d i) ∧
    (∀ i : ℕ, argmin l = some i ↔ IsFirstArgmin l d i) := by
  refine ⟨?_, ?_, ?_, ?_⟩
  · constructor
    · intro h
      match l with
      | [] => rfl
      | v :: vs => simp [argmax] at h
    · intro h; rw [h]; rfl
  · constructor
    · intro h
      match l with
      | [] => rfl
      | v :: vs => simp [argmin] at h
    · intro h; rw [h]; rfl
  · intro i
    constructor
    · exact argmax_isFirstArgmax l d i
    · intro hP
      match hsome : argmax l with
      | none =>
        match l with
        | [] =>
          exact absurd hP.1 (by simp)
        | v :: vs => simp [argmax] at hsome
      | some r =>
        have hr : IsFirstArgmax l d r := argmax_isFirstArgmax l d r hsome
        have heq : i = r := isFirstArgmax_unique l d i r hP hr
        rw [heq]
  · intro i
    constructor
    · exact argmin_isFirstArgmin l d i
    · intro hP
      match hsome : argmin l with
      | none =>
        match l with
        | [] =>
          exact absurd hP.1 (by simp)
        | v :: vs => simp [argmin] at hsome
      | some r =>
        have hr : IsFirstArgmin l d r := argmin_isFirstArgmin l d r hsome
        have heq : i = r := isFirstArgmin_unique l d i r hP hr
        rw [heq]

/-! ## HyperBall iteration bookkeeping (src/algo/hyperball/hyperball_impl.rs)

IEEE-754 doubles are modelled as rationals. The adaptive-mode flags, the
neighbourhood-function history update, the initialisation tail and the
run loop are embedded as pure functions of the quantities the source
reads.
-/

/-- The three adaptive-mode flags of a HyperBall iteration. -/
structure ModeFlags where
  systolic : Bool
  localMode : Bool
  preLocal : Bool
deriving DecidableEq, Repr

/-- Model of the mode decision at the top of HyperBall::iterate
(hyperball_impl.rs lines 875-887): systolic iff a transpose is available,
the iteration index is positive and fewer than numNodes / 4 counters were
modified; local iff the previous iteration set pre-local; pre-local iff
systolic and modifiedCounters < (numNodes * numNodes) / (numArcs * 10),
all in truncating unsigned integer arithmetic. -/
def hyperballModeUpdate (hasTranspose : Bool) (iteration modifiedCounters numNodes numArcs : ℕ)
    (prev : ModeFlags) : ModeFlags :=
  let systolic := hasTranspose && decide (0 < iteration) &&
    decide (modifiedCounters < numNodes / 4)
  let localMode := prev.preLocal
  let preLocal := systolic &&
    decide (modifiedCounters < (numNodes * numNodes) / (numArcs * 10))
  ⟨systolic, localMode, preLocal⟩

/-- C4 counterexample: with a transpose, at iteration 1 on a graph with
100 nodes and 100 arcs and 5 modified counters, the code sets pre-local
(5 < 100 * 100 / (100 * 10) = 10), but the claimed predicate
modified * numNodes < numArcs / 10 is false there (500 is not below 10),
in rational arithmetic as well. -/
theorem hyperball_pre_local_counterexample :
    (hyperballModeUpdate true 1 5 100 100 ⟨false, false, false⟩).preLocal = true ∧
    ¬ (5 * 100 < 100 / 10) ∧ ¬ ((5 : ℚ) * 100 < 100 / 10) := by
  refine ⟨by decide, by decide, by norm_num⟩

/-- C4 (amended): an iteration is pre-local iff it is systolic and
modifiedCounters < (numNodes * numNodes) / (numArcs * 10) in integer
arithmetic, and an iteration is local iff the previous iteration set
pre-local. -/
theorem hyperball_mode_flags (hasTranspose : Bool)
    (iteration modifiedCounters numNodes numArcs : ℕ) (prev : ModeFlags) :
    ((hyperballModeUpdate hasTranspose iteration modifiedCounters numNodes numArcs
        prev).preLocal = true ↔
      ((hyperballModeUpdate hasTranspose iteration modifiedCounters numNodes numArcs
        prev).systolic = true ∧
        modifiedCounters < (numNodes * numNodes) / (numArcs * 10))) ∧
    ((hyperballModeUpdate hasTranspose iteration modifiedCounters numNodes numArcs
        prev).localMode = true ↔ prev.preLocal = true) := by
  constructor
  · simp [hyperballModeUpdate]
  · simp [hyperballModeUpdate]

/-- The fields of a HyperBall instance that HyperBall::init resets
(hyperball_impl.rs lines 1285-1307), after clearing and seeding the
counters. -/
structure HyperBallInitState where
  iteration : ℕ
  completed : Bool
  systolic : Bool
  localMode : Bool
  preLocal : Bool
  last : ℚ
  neighbourhoodFunction : List ℚ
deriving DecidableEq, Repr

/-- Model of the tail of HyperBall::init: the counter seeding (node id i
into counter i, or weights[i] random values into counter i when weights
are supplied) touches only the register file; the bookkeeping then sets
last to the number of nodes and pushes it as the sole entry of the
neighbourhood-function history, without consulting the weights. -/
def hyperballInit (numNodes : ℕ) (weights : Option (List ℕ)) : HyperBallInitState :=
  let _ := weights
  let lastVal : ℚ := (numNodes : ℚ)
  { iteration := 0, completed := false, systolic := false, localMode := false,
    preLocal := false, last := lastVal, neighbourhoodFunction := [lastVal] }

/-- Modelled from the spec: the claimed first neighbourhood-function
value, namely the total node weight: the sum of the per-node weights
when they are supplied and the number of nodes otherwise. -/
def specInitialNeighbourhoodValue (numNodes : ℕ) (weights : Option (List ℕ)) : ℚ :=
  match weights with
  | some w => (w.sum : ℚ)
  | none => (numNodes : ℚ)

/-- C5 counterexample: on a two-node graph with weights [2, 3] the code
pushes 2 (the node count) as the first history value, while the claim
requires the total node weight 5. -/
theorem hyperball_init_history_counterexample :
    (hyperballInit 2 (some [2, 3])).neighbourhoodFunction = [(2 : ℚ)] ∧
    specInitialNeighbourhoodValue 2 (some [2, 3]) = (5 : ℚ) ∧ (2 : ℚ) ≠ (5 : ℚ) := by
  refine ⟨rfl, by norm_num [specInitialNeighbourhoodValue], by norm_num⟩

/-- C5 (amended): the first value pushed into the neighbourhood-function
history is always the number of nodes, also when per-node weights are
supplied; without weights this coincides with the claimed total node
weight. -/
theorem hyperball_init_history (numNodes : ℕ) (weights : Option (List ℕ)) :
    (hyperballInit numNodes weights).neighbourhoodFunction = [(numNodes : ℚ)] ∧
    (hyperballInit numNodes weights).last = (numNodes : ℚ) ∧
    specInitialNeighbourhoodValue numNodes none = (numNodes : ℚ) := by
  exact ⟨rfl, rfl, rfl⟩

/-- Model of the end of HyperBall::iterate (hyperball_impl.rs lines
1001-1029): the accumulated value is replaced by the last history entry
whenever it is smaller, the relative increment is the quotient of the
replaced value by the last entry, and the replaced value is appended.
Returns (new history, pushed value, relative increment). -/
def hyperballEndOfIteration (nf : List ℚ) (current : ℚ) : List ℚ × ℚ × ℚ :=
  let lastOutput := nf.getLastD 0
  let current2 := if current < lastOutput then lastOutput else current
  (nf ++ [current2], current2, current2 / lastOutput)

/-- The neighbourhood-function history after running the end-of-iteration
update once per entry of currents (the per-iteration accumulated
values), starting from the history created by init. -/
def hyperballHistory (numNodes : ℕ) (weights : Option (List ℕ))
    (currents : List ℚ) : List ℚ :=
  currents.foldl (fun h c => (hyperballEndOfIteration h c).1)
    (hyperballInit numNodes weights).neighbourhoodFunction

theorem endOfIteration_append (nf : List ℚ) (c : ℚ) :
    (hyperballEndOfIteration nf c).1 = nf ++ [max (nf.getLastD 0) c] := by
  simp only [hyperballEndOfIteration]
  congr 1
  rw [max_def]
  by_cases h : c < nf.getLastD 0
  · rw [if_pos h, if_neg (not_le_of_lt h)]
  · rw [if_neg h, if_pos (le_of_not_lt h)]

theorem chain'_append_max (nf : List ℚ) (c : ℚ) (hne : nf ≠ [])
    (hch : List.Chain' (· ≤ ·) nf) :
    List.Chain' (· ≤ ·) (nf ++ [max (nf.getLastD 0) c]) := by
  rw [List.chain'_append]
  refine ⟨hch, List.chain'_singleton _, ?_⟩
  intro x hx y hy
  simp only [List.head?_cons, Option.mem_def, Option.some.injEq] at hy
  have hlast : nf.getLast? = some (nf.getLast hne) := List.getLast?_eq_getLast nf hne
  rw [hlast] at hx
  simp only [Option.mem_def, Option.some.injEq] at hx
  have hgetD : nf.getLastD 0 = nf.getLast hne := by
    rw [List.getLastD_eq_getLast?, hlast]
    rfl
  rw [← hy, ← hx]
  rw [hgetD]
  exact le_max_left _ _

theorem hyperballHistory_aux (currents : List ℚ) :
    ∀ (h : List ℚ), h ≠ [] → List.Chain' (· ≤ ·) h →
      (currents.foldl (fun h c => (hyperballEndOfIteration h c).1) h ≠ [] ∧
       List.Chain' (· ≤ ·)
         (currents.foldl (fun h c => (hyperballEndOfIteration h c).1) h)) := by
  induction currents with
  | nil => intro h hne hch; exact ⟨hne, hch⟩
  | cons c rest ih =>
    intro h hne hch
    simp only [List.foldl_cons]
    refine ih _ ?_ ?_
    · rw [endOfIteration_append]
      simp
    · rw [endOfIteration_append]
      exact chain'_append_max h c hne hch

/-- C3: the neighbourhood-function history is monotonically
non-decreasing for every run: each end-of-iteration update appends
max(current, previous last) — replacing the accumulated value by the
previous history entry whenever it is smaller — and computes the
relative increment from the replaced value, so N(t+1) is at least N(t)
at every t. -/
theorem hyperball_history_monotone (numNodes : ℕ) (weights : Option (List ℕ))
    (currents : List ℚ) :
    List.Chain' (· ≤ ·) (hyperballHistory numNodes weights currents) ∧
    (∀ (a : ℚ) (rest : List ℚ) (c : ℚ),
      (hyperballEndOfIteration (a :: rest) c).1
          = (a :: rest) ++ [max ((a :: rest).getLastD 0) c] ∧
      (hyperballEndOfIteration (a :: rest) c).2.1
          = max ((a :: rest).getLastD 0) c ∧
      (hyperballEndOfIteration (a :: rest) c).2.2
          = max ((a :: rest).getLastD 0) c / (a :: rest).getLastD 0) := by
  constructor
  · exact (hyperballHistory_aux currents [(numNodes : ℚ)] (by simp)
      (List.chain'_singleton _)).2
  · intro a rest c
    refine ⟨endOfIteration_append _ _, ?_, ?_⟩
    · simp only [hyperballEndOfIteration, max_def]
      by_cases h : c < (a :: rest).getLastD 0
      · rw [if_pos h, if_neg (not_le_of_lt h)]
      · rw [if_neg h, if_pos (le_of_not_lt h)]
    · simp only [hyperballEndOfIteration, max_def]
      by_cases h : c < (a :: rest).getLastD 0
      · rw [if_pos h, if_neg (not_le_of_lt h)]
      · rw [if_neg h, if_pos (le_of_not_lt h)]

/-- The stopping test evaluated after iteration i of HyperBall::run
(hyperball_impl.rs lines 593-613): stop when the iteration modified no
counters, or when a threshold t was supplied, i exceeds 3 and the
relative increment is strictly below 1 + t. -/
def hyperballStop (threshold : Option ℚ) (modified : ℕ) (relInc : ℚ) (i : ℕ) : Bool :=
  decide (modified = 0) ||
    (match threshold with
     | some t => decide (3 < i) && decide (relInc < 1 + t)
     | none => false)

/-- The run loop: starting at iteration index i with the given remaining
budget, perform an iteration and stop early when the stopping test
fires; returns the total number of iterations performed. -/
def runLoopCount (stop : ℕ → Bool) : ℕ → ℕ → ℕ
  | i, 0 => i
  | i, fuel + 1 => if stop i then i + 1 else runLoopCount stop (i + 1) fuel

/-- Model of HyperBall::run (hyperball_impl.rs lines 575-618): the upper
bound is clamped to the number of nodes, then the loop runs with the
stopping test; modified and relInc give the values produced by each
iteration. Returns the number of iterations performed. -/
def hyperballRun (upperBound numNodes : ℕ) (modified : ℕ → ℕ) (relInc : ℕ → ℚ)
    (threshold : Option ℚ) : ℕ :=
  runLoopCount (fun i => hyperballStop threshold (modified i) (relInc i) i) 0
    (min upperBound numNodes)

theorem runLoopCount_spec (stop : ℕ → Bool) :
    ∀ (fuel i : ℕ),
      i ≤ runLoopCount stop i fuel ∧ runLoopCount stop i fuel ≤ i + fuel ∧
      (∀ j, i ≤ j → j + 1 < runLoopCount stop i fuel → stop j = false) ∧
      (runLoopCount stop i fuel < i + fuel →
        i < runLoopCount stop i fuel ∧ stop (runLoopCount stop i fuel - 1) = true) := by
  intro fuel
  induction fuel with
  | zero =>
    intro i
    simp only [runLoopCount]
    exact ⟨le_refl i, by omega, by omega, by omega⟩
  | succ n ih =>
    intro i
    simp only [runLoopCount]
    by_cases hs : stop i
    · simp only [if_pos hs]
      refine ⟨by omega, by omega, by omega, ?_⟩
      intro _
      exact ⟨by omega, by simpa using hs⟩
    · simp only [if_neg hs]
      obtain ⟨h1, h2, h3, h4⟩ := ih (i + 1)
      refine ⟨by omega, by omega, ?_, ?_⟩
      · intro j hij hjr
        rcases Nat.eq_or_lt_of_le hij with rfl | hlt
        · simpa using hs
        · exact h3 j (by omega) hjr
      · intro hr
        obtain ⟨ha, hb⟩ := h4 (by omega)
        exact ⟨by omega, hb⟩

/-- C7: HyperBall::run clamps the upper bound to the number of nodes and
then performs iterations until the first one whose stopping test fires:
the count n of iterations satisfies n ≤ min(upperBound, numNodes), no
iteration strictly before the last performed one passed the stopping
test, early termination (n below the clamped bound) happens exactly by a
firing test, and the test fires precisely when modified = 0 or a
threshold t was supplied with the iteration index above 3 and the
relative increment strictly below 1 + t. -/
theorem hyperball_run_characterisation (upperBound numNodes : ℕ)
    (modified : ℕ → ℕ) (relInc : ℕ → ℚ) (threshold : Option ℚ) :
    (hyperballRun upperBound numNodes modified relInc threshold
        ≤ min upperBound numNodes) ∧
    (∀ j, j + 1 < hyperballRun upperBound numNodes modified relInc threshold →
      hyperballStop threshold (modified j) (relInc j) j = false) ∧
    (hyperballRun upperBound numNodes modified relInc threshold
        < min upperBound numNodes →
      0 < hyperballRun upperBound numNodes modified relInc threshold ∧
      hyperballStop threshold
        (modified (hyperballRun upperBound numNodes modified relInc threshold - 1))
        (relInc (hyperballRun upperBound numNodes modified relInc threshold - 1))
        (hyperballRun upperBound numNodes modified relInc threshold - 1) = true) ∧
    (∀ m r (i : ℕ), hyperballStop threshold m r i = true ↔
      (m = 0 ∨ ∃ t, threshold = some t ∧ 3 < i ∧ r < 1 + t)) := by
  obtain ⟨h1, h2, h3, h4⟩ := runLoopCount_spec
    (fun i => hyperballStop threshold (modified i) (relInc i) i)
    (min upperBound numNodes) 0
  refine ⟨by simpa [hyperballRun] using h2, ?_, ?_, ?_⟩
  · intro j hj
    exact h3 j (Nat.zero_le j) (by simpa [hyperballRun] using hj)
  · intro hlt
    have := h4 (by simpa [hyperballRun] using hlt)
    exact ⟨by simpa [hyperballRun] using this.1, by simpa [hyperballRun] using this.2⟩
  · intro m r i
    cases threshold with
    | none => simp [hyperballStop]
    | some t =>
      simp only [hyperballStop, Bool.or_eq_true, decide_eq_true_eq,
        Bool.and_eq_true, Option.some.injEq]
      constructor
      · rintro (hm | ⟨hi, hr⟩)
        · exact Or.inl hm
        · exact Or.inr ⟨t, rfl, hi, hr⟩
      · rintro (hm | ⟨t₂, ht₂, hi, hr⟩)
        · exact Or.inl hm
        · cases ht₂
          exact Or.inr ⟨hi, hr⟩

/-- Witness for the run characterisation: with upper bound 10 on a
5-node graph where iteration 2 modifies no counters, three iterations
run: the bound is clamped to 5, iterations 0 and 1 do not fire the test,
and iteration 2 fires it by modified = 0. -/
theorem hyperball_run_witness :
    hyperballRun 10 5 (fun i => if i < 2 then 3 else 0) (fun _ => 2) none = 3 ∧
    hyperballRun 10 5 (fun i => if i < 2 then 3 else 0) (fun _ => 2) none
        ≤ min 10 5 ∧
    hyperballStop none
      (if (2 : ℕ) < 2 then 3 else 0) ((fun _ => (2 : ℚ)) 2) 2 = true := by
  refine ⟨by decide, ?_, ?_⟩
  · exact (hyperball_run_characterisation 10 5 (fun i => if i < 2 then 3 else 0)
      (fun _ => 2) none).1
  · exact ((hyperball_run_characterisation 10 5 (fun i => if i < 2 then 3 else 0)
      (fun _ => 2) none).2.2.2 0 2 2).mpr (Or.inl rfl)

/-! ## HyperLogLog counter array builder (src/utils/hyper_log_log/hyper_log_log_array.rs)

The builder takes the number of registers per counter as 2 to the power
log_2_num_registers and a register size in bits (the source derives the
register size from the declared element upper bound; it is a direct
parameter here), and reports an error unless the per-counter bit size is
a multiple of the backend word width.
-/

/-- The configuration stored by a successfully built counter array. Bit
masks are the packed values of the per-register mask words. -/
structure HllConfig where
  numCounters : ℕ
  numRegisters : ℕ
  registerSize : ℕ
  log2NumRegisters : ℕ
  counterSizeInBits : ℕ
  residualMask : ℕ
deriving DecidableEq, Repr

/-- Model of HyperLogLogCounterArrayBuilder::build
(hyper_log_log_array.rs lines 182-274): reject log_2_num_registers below
4; reject a per-counter bit size 2 ^ p * r that is not a multiple of the
word width W; otherwise succeed, with the residual mask all ones since
the counter is word-aligned. -/
def hllBuild (p r W numCounters : ℕ) : Except String HllConfig :=
  if ¬ 4 ≤ p then
    Except.error "the logarithm of the number of registers per counter should be at least 4"
  else
    let m := 2 ^ p
    let counterSizeInBits := m * r
    if counterSizeInBits % W ≠ 0 then
      Except.error "W should allow counters to be aligned"
    else
      Except.ok
        { numCounters := numCounters, numRegisters := m, registerSize := r,
          log2NumRegisters := p, counterSizeInBits := counterSizeInBits,
          residualMask := 2 ^ W - 1 }

/-- C6: building a counter array succeeds exactly when p is at least 4
and the per-counter bit size 2 ^ p * r is a multiple of the word width;
in particular p = 4 with r = 5 (80 bits) is rejected on a 64-bit
backend while p = 4 with r = 8 (128 bits) is accepted. -/
theorem hll_build_alignment (p r W numCounters : ℕ) :
    ((hllBuild p r W numCounters).isOk = true ↔ (4 ≤ p ∧ (2 ^ p * r) % W = 0)) ∧
    (hllBuild 4 5 64 10).isOk = false ∧ (hllBuild 4 8 64 10).isOk = true := by
  refine ⟨?_, by decide, by decide⟩
  by_cases hp : 4 ≤ p
  · by_cases ha : (2 ^ p * r) % W = 0
    · simp [hllBuild, hp, ha, Except.isOk, Except.toBool]
    · simp [hllBuild, hp, ha, Except.isOk, Except.toBool]
  · simp [hllBuild, hp, Except.isOk, Except.toBool]

/-! ## HyperLogLogCounter::set_to cache update (src/utils/hyper_log_log.rs)

When the target counter is cached, set_to copies the source bytes into
the cache and then recomputes the modified flag by comparing the target
backend bytes with the freshly written cache bytes. Byte slices are
modelled as lists.
-/

/-- Model of the cached branch of HyperLogLogCounter::set_to
(hyper_log_log.rs lines 1025-1039): the cache becomes the source bytes
and the changed flag is set to the result of comparing the target
backend slice with the new cache slice for equality, exactly as the
source assignment writes it. -/
def hllSetToCached (targetBackend source : List ℕ) : List ℕ × Bool :=
  let newCache := source
  (newCache, decide (targetBackend = newCache))

/-- Model of HyperLogLogCounter::is_changed (hyper_log_log.rs lines
509-517): the flag of the cache when cached, false otherwise. -/
def hllIsChanged (cachedBits : Option (List ℕ × Bool)) : Bool :=
  match cachedBits with
  | some (_, changed) => changed
  | none => false

/-- C10 evaluation at the failing input: copying source bytes [1] into a
cached counter whose backend bytes are [0] leaves the modified flag
false although cache and backend differ, and copying identical bytes [0]
sets the flag true although no commit is needed; the flag equals the
equality, not the inequality, of backend and cache. -/
theorem hll_set_to_changed_flag_evaluation :
    hllIsChanged (some (hllSetToCached [0] [1])) = false ∧
    ([0] : List ℕ) ≠ [1] ∧
    hllIsChanged (some (hllSetToCached [0] [0])) = true ∧
    (∀ backend source : List ℕ,
      hllIsChanged (some (hllSetToCached backend source)) = decide (backend = source)) := by
  refine ⟨by decide, by decide, by decide, ?_⟩
  intro backend source
  rfl

/-! ## ExactSumSweep pivot selection (src/algo/exact_sum_sweep/computer.rs)

find_best_pivot scans the component slice in reverse node-index order
and keeps, per component, the best candidate under the key
backward_low + forward_low + completion penalties, with the tie broken
towards a smaller total and, on full ties, towards the candidate scanned
later (the smaller index), because the replacement test uses a
non-strict comparison on the totals.
-/

/-- The per-node eccentricity-bound state of the ExactSumSweep computer;
Vec indexing is function application. -/
structure EssBounds where
  forwardLow : ℕ → ℕ
  forwardHigh : ℕ → ℕ
  backwardLow : ℕ → ℕ
  backwardHigh : ℕ → ℕ
  forwardTot : ℕ → ℕ
  backwardTot : ℕ → ℕ

/-- incomplete_forward of computer.rs: the bounds brackets are not yet
tight. -/
def essIncompleteForward (st : EssBounds) (v : ℕ) : Bool :=
  decide (st.forwardLow v ≠ st.forwardHigh v)

/-- incomplete_backward of computer.rs. -/
def essIncompleteBackward (st : EssBounds) (v : ℕ) : Bool :=
  decide (st.backwardLow v ≠ st.backwardHigh v)

/-- The selection key of find_best_pivot (computer.rs lines 401-425):
backward_low + forward_low plus numNodes for each already-complete
direction. -/
def essPivotKey (n : ℕ) (st : EssBounds) (v : ℕ) : ℕ :=
  st.backwardLow v + st.forwardLow v +
    (if essIncompleteForward st v then 0 else n) +
    (if essIncompleteBackward st v then 0 else n)

/-- The tie-break total of find_best_pivot: forward_tot + backward_tot. -/
def essPivotTot (st : EssBounds) (v : ℕ) : ℕ :=
  st.forwardTot v + st.backwardTot v

/-- One candidate update of the find_best_pivot scan: node v replaces
the current pivot of its component when no pivot is recorded, when its
key is strictly smaller, or when the keys are equal and its total is at
most the recorded total (the source test current < best or
current == best and tot of v at most tot of p). -/
def findBestPivotStep (key tot comp : ℕ → ℕ) (pv : ℕ → Option ℕ) (v : ℕ) :
    ℕ → Option ℕ :=
  fun c =>
    if c = comp v then
      match pv c with
      | none => some v
      | some p =>
          if key v < key p ∨ (key v = key p ∧ tot v ≤ tot p) then some v else some p
    else pv c

/-- The scan of find_best_pivot in reverse node-index order: process
nodes k-1, k-2, ..., 0 starting from the accumulator pv. -/
def findBestPivotGo (key tot comp : ℕ → ℕ) : ℕ → (ℕ → Option ℕ) → (ℕ → Option ℕ)
  | 0, pv => pv
  | k + 1, pv => findBestPivotGo key tot comp k (findBestPivotStep key tot comp pv k)

/-- Model of DirExactSumSweepComputer::find_best_pivot (computer.rs
lines 388-443): scan all n nodes in reverse index order, keeping one
candidate per component. -/
def essFindBestPivot (n : ℕ) (comp : ℕ → ℕ) (st : EssBounds) : ℕ → Option ℕ :=
  findBestPivotGo (essPivotKey n st) (essPivotTot st) comp n (fun _ => none)

/-- The characterising predicate of the chosen pivot of component c: a
member whose key is minimal over the members, whose total is minimal
among the key-minimisers (non-strict replacement makes its totals at
most every other key-minimiser), and which is the last candidate in the
reverse scan, that is the smallest index, among the full ties. -/
def IsBestPivot (n : ℕ) (key tot comp : ℕ → ℕ) (c p : ℕ) : Prop :=
  p < n ∧ comp p = c ∧
    (∀ v, v < n → comp v = c →
      key p < key v ∨ (key p = key v ∧ tot p ≤ tot v)) ∧
    (∀ v, v < n → comp v = c → key v = key p → tot v = tot p → p ≤ v)

/-- Invariant of the scan: with nodes k, ..., n-1 already processed, the
accumulator records for every component either no pivot and no processed
member, or a processed member that is optimal among the processed
members. -/
def PivotInv (n : ℕ) (key tot comp : ℕ → ℕ) (k : ℕ) (pv : ℕ → Option ℕ) : Prop :=
  ∀ c, (pv c = none → ∀ v, k ≤ v → v < n → comp v ≠ c) ∧
    (∀ p, pv c = some p → k ≤ p ∧ p < n ∧ comp p = c ∧
      (∀ v, k ≤ v → v < n → comp v = c →
        key p < key v ∨ (key p = key v ∧ tot p ≤ tot v)) ∧
      (∀ v, k ≤ v → v < n → comp v = c → key v = key p → tot v = tot p → p ≤ v))

theorem pivotInv_step (n : ℕ) (key tot comp : ℕ → ℕ) (k : ℕ) (pv : ℕ → Option ℕ)
    (hk : k < n) (hinv : PivotInv n key tot comp (k + 1) pv) :
    PivotInv n key tot comp k (findBestPivotStep key tot comp pv k) := by
  intro c
  obtain ⟨hnone, hsome⟩ := hinv c
  by_cases hc : c = comp k
  · constructor
    · intro hpn
      exfalso
      simp only [findBestPivotStep, if_pos hc] at hpn
      match hpv : pv c with
      | none => simp only [hpv] at hpn; exact Option.noConfusion hpn
      | some p =>
        simp only [hpv] at hpn
        by_cases hcond : key k < key p ∨ (key k = key p ∧ tot k ≤ tot p)
        · rw [if_pos hcond] at hpn; exact Option.noConfusion hpn
        · rw [if_neg hcond] at hpn; exact Option.noConfusion hpn
    · intro q hq
      simp only [findBestPivotStep, if_pos hc] at hq
      match hpv : pv c with
      | none =>
        simp only [hpv] at hq
        have hqk : q = k := by
          simpa using hq.symm
        subst hqk
        refine ⟨le_refl q, hk, hc.symm, ?_, ?_⟩
        · intro v hv hvn hvc
          rcases Nat.eq_or_lt_of_le hv with rfl | hlt
          · exact Or.inr ⟨rfl, le_refl _⟩
          · exact absurd hvc (hnone hpv v hlt hvn)
        · intro v hv _ _ _ _
          exact hv
      | some p =>
        simp only [hpv] at hq
        obtain ⟨hp1, hp2, hp3, hp4, hp5⟩ := hsome p hpv
        by_cases hcond : key k < key p ∨ (key k = key p ∧ tot k ≤ tot p)
        · rw [if_pos hcond] at hq
          have hqk : q = k := by simpa using hq.symm
          subst hqk
          refine ⟨le_refl q, hk, hc.symm, ?_, ?_⟩
          · intro v hv hvn hvc
            rcases Nat.eq_or_lt_of_le hv with rfl | hlt
            · exact Or.inr ⟨rfl, le_refl _⟩
            · have hold := hp4 v hlt hvn hvc
              rcases hcond with hlt₂ | ⟨heq₂, hle₂⟩
              · rcases hold with h | ⟨h, _⟩
                · exact Or.inl (lt_trans hlt₂ h)
                · exact Or.inl (h ▸ hlt₂)
              · rcases hold with h | ⟨h, htot⟩
                · exact Or.inl (heq₂ ▸ h)
                · exact Or.inr ⟨heq₂.trans h, le_trans hle₂ htot⟩
          · intro v hv _ _ _ _
            exact hv
        · rw [if_neg hcond] at hq
          have hqp : q = p := by simpa using hq.symm
          subst hqp
          push_neg at hcond
          obtain ⟨hnotlt, hnoteq⟩ := hcond
          refine ⟨by omega, hp2, hp3, ?_, ?_⟩
          · intro v hv hvn hvc
            rcases Nat.eq_or_lt_of_le hv with rfl | hlt
            · rcases Nat.lt_trichotomy (key q) (key k) with h | h | h
              · exact Or.inl h
              · refine Or.inr ⟨h, ?_⟩
                have := hnoteq h.symm
                omega
              · omega
            · exact hp4 v hlt hvn hvc
          · intro v hv hvn hvc hkeq hteq
            rcases Nat.eq_or_lt_of_le hv with rfl | hlt
            · exfalso
              have := hnoteq hkeq
              omega
            · exact hp5 v hlt hvn hvc hkeq hteq
  · constructor
    · intro hpn
      simp only [findBestPivotStep, if_neg hc] at hpn
      intro v hv hvn
      rcases Nat.eq_or_lt_of_le hv with rfl | hlt
      · exact fun h => hc (h ▸ rfl)
      · exact hnone hpn v hlt hvn
    · intro q hq
      simp only [findBestPivotStep, if_neg hc] at hq
      obtain ⟨hp1, hp2, hp3, hp4, hp5⟩ := hsome q hq
      refine ⟨by omega, hp2, hp3, ?_, ?_⟩
      · intro v hv hvn hvc
        rcases Nat.eq_or_lt_of_le hv with rfl | hlt
        · exact absurd hvc.symm (fun h => hc (h ▸ rfl))
        · exact hp4 v hlt hvn hvc
      · intro v hv hvn hvc
        rcases Nat.eq_or_lt_of_le hv with rfl | hlt
        · exact absurd hvc.symm (fun h => hc (h ▸ rfl))
        · exact hp5 v hlt hvn hvc

theorem pivotInv_go (n : ℕ) (key tot comp : ℕ → ℕ) :
    ∀ (k : ℕ) (pv : ℕ → Option ℕ), k ≤ n → PivotInv n key tot comp k pv →
      PivotInv n key tot comp 0 (findBestPivotGo key tot comp k pv) := by
  intro k
  induction k with
  | zero => intro pv _ h; exact h
  | succ m ih =>
    intro pv hm hinv
    simp only [findBestPivotGo]
    exact ih _ (by omega) (pivotInv_step n key tot comp m pv (by omega) hinv)

theorem isBestPivot_unique (n : ℕ) (key tot comp : ℕ → ℕ) (c p₁ p₂ : ℕ)
    (h₁ : IsBestPivot n key tot comp c p₁) (h₂ : IsBestPivot n key tot comp c p₂) :
    p₁ = p₂ := by
  obtain ⟨ha1, ha2, ha3, ha4⟩ := h₁
  obtain ⟨hb1, hb2, hb3, hb4⟩ := h₂
  have h12 := ha3 p₂ hb1 hb2
  have h21 := hb3 p₁ ha1 ha2
  have hkey : key p₁ = key p₂ := by omega
  have htot : tot p₁ = tot p₂ := by omega
  have := ha4 p₂ hb1 hb2 hkey.symm htot.symm
  have := hb4 p₁ ha1 ha2 hkey htot
  omega

/-- C8: for every component c, the pivot scan is empty exactly when the
component has no member below n, and it returns p exactly when p is a
member with minimal key backward_low + forward_low + completion
penalties, minimal total among the key-minimisers, and the smallest
index among full ties (the last equally good candidate in the reverse
scan direction), so the chosen pivot is a deterministic function of the
bounds state. -/
theorem find_best_pivot_characterisation (n : ℕ) (comp : ℕ → ℕ) (st : EssBounds)
    (c p : ℕ) :
    (essFindBestPivot n comp st c = none ↔ ∀ v, v < n → comp v ≠ c) ∧
    (essFindBestPivot n comp st c = some p ↔
      IsBestPivot n (essPivotKey n st) (essPivotTot st) comp c p) := by
  have hinv0 : PivotInv n (essPivotKey n st) (essPivotTot st) comp n (fun _ => none) := by
    intro c₀
    refine ⟨?_, ?_⟩
    · intro _ v hv hvn; omega
    · intro q hq; exact Option.noConfusion hq
  have hinv := pivotInv_go n (essPivotKey n st) (essPivotTot st) comp n
    (fun _ => none) (le_refl n) hinv0
  obtain ⟨hnone, hsome⟩ := hinv c
  constructor
  · constructor
    · intro h v hv
      exact hnone h v (Nat.zero_le v) hv
    · intro h
      match hpv : essFindBestPivot n comp st c with
      | none => rfl
      | some q =>
        obtain ⟨_, hq2, hq3, _, _⟩ := hsome q hpv
        exact absurd hq3 (h q hq2)
  · constructor
    · intro h
      obtain ⟨_, hq2, hq3, hq4, hq5⟩ := hsome p h
      exact ⟨hq2, hq3,
        fun v hv hvc => hq4 v (Nat.zero_le v) hv hvc,
        fun v hv hvc => hq5 v (Nat.zero_le v) hv hvc⟩
    · intro hbp
      match hpv : essFindBestPivot n comp st c with
      | none =>
        exact absurd hbp.2.1 (hnone hpv p (Nat.zero_le p) hbp.1)
      | some q =>
        obtain ⟨_, hq2, hq3, hq4, hq5⟩ := hsome q hpv
        have hqbp : IsBestPivot n (essPivotKey n st) (essPivotTot st) comp c q :=
          ⟨hq2, hq3, fun v hv hvc => hq4 v (Nat.zero_le v) hv hvc,
            fun v hv hvc => hq5 v (Nat.zero_le v) hv hvc⟩
        rw [isBestPivot_unique n (essPivotKey n st) (essPivotTot st) comp c q p
          hqbp hbp]

/-! ## HyperLogLog merge (src/utils/hyper_log_log.rs)

A counter is m registers of r bits packed little-endian; the packed
content is the natural number packR r registers. The multi-word slices
of the source then correspond to this number: wordwise AND / OR / XOR
are the Nat bitwise operations, the borrow-chain subtract helper is Nat
subtraction of the packed values, and the cross-word shift loop is a
right shift of the packed value.
-/

/-- The packed value of a list of r-bit registers, register 0 in the
least significant bits. -/
def packR (r : ℕ) : List ℕ → ℕ
  | [] => 0
  | v :: vs => v + 2 ^ r * packR r vs

theorem testBit_block (k a b j : ℕ) (ha : a < 2 ^ k) :
    (a + 2 ^ k * b).testBit j = if j < k then a.testBit j else b.testBit (j - k) := by
  rw [Nat.add_comm]
  exact Nat.testBit_mul_pow_two_add b ha j

theorem lor_block (k a b c d : ℕ) (ha : a < 2 ^ k) (hc : c < 2 ^ k) :
    (a + 2 ^ k * b) ||| (c + 2 ^ k * d) = (a ||| c) + 2 ^ k * (b ||| d) := by
  apply Nat.eq_of_testBit_eq
  intro j
  rw [Nat.testBit_or, testBit_block k a b j ha, testBit_block k c d j hc,
    testBit_block k (a ||| c) (b ||| d) j (Nat.or_lt_two_pow ha hc)]
  by_cases hj : j < k
  · simp [hj, Nat.testBit_or]
  · simp [hj, Nat.testBit_or]

theorem land_block (k a b c d : ℕ) (ha : a < 2 ^ k) (hc : c < 2 ^ k) :
    (a + 2 ^ k * b) &&& (c + 2 ^ k * d) = (a &&& c) + 2 ^ k * (b &&& d) := by
  apply Nat.eq_of_testBit_eq
  intro j
  rw [Nat.testBit_and, testBit_block k a b j ha, testBit_block k c d j hc,
    testBit_block k (a &&& c) (b &&& d) j
      (lt_of_le_of_lt (Nat.and_le_left) ha)]
  by_cases hj : j < k
  · simp [hj, Nat.testBit_and]
  · simp [hj, Nat.testBit_and]

theorem xor_block (k a b c d : ℕ) (ha : a < 2 ^ k) (hc : c < 2 ^ k) :
    (a + 2 ^ k * b) ^^^ (c + 2 ^ k * d) = (a ^^^ c) + 2 ^ k * (b ^^^ d) := by
  apply Nat.eq_of_testBit_eq
  intro j
  rw [Nat.testBit_xor, testBit_block k a b j ha, testBit_block k c d j hc,
    testBit_block k (a ^^^ c) (b ^^^ d) j (Nat.xor_lt_two_pow ha hc)]
  by_cases hj : j < k
  · simp [hj, Nat.testBit_xor]
  · simp [hj, Nat.testBit_xor]

theorem sub_block (k a b c d : ℕ) (hca : c ≤ a) (hdb : d ≤ b) :
    (a + 2 ^ k * b) - (c + 2 ^ k * d) = (a - c) + 2 ^ k * (b - d) := by
  obtain ⟨e, rfl⟩ := Nat.le.dest hdb
  have hmul : 2 ^ k * (d + e) = 2 ^ k * d + 2 ^ k * e := Nat.mul_add _ _ _
  rw [hmul]
  have h1 : d + e - d = e := by omega
  rw [h1]
  generalize 2 ^ k * d = P
  generalize 2 ^ k * e = Q
  omega

theorem pack_lt (r : ℕ) : ∀ (xs : List ℕ), (∀ v ∈ xs, v < 2 ^ r) →
    packR r xs < 2 ^ (r * xs.length) := by
  intro xs
  induction xs with
  | nil => intro _; simp [packR]
  | cons v vs ih =>
    intro hb
    have hv : v < 2 ^ r := hb v (List.mem_cons_self v vs)
    have hvs := ih (fun w hw => hb w (List.mem_cons_of_mem v hw))
    simp only [packR, List.length_cons]
    have hpow : 2 ^ (r * (vs.length + 1)) = 2 ^ r * 2 ^ (r * vs.length) := by
      rw [Nat.mul_add, Nat.mul_one, Nat.pow_add, Nat.mul_comm]
    rw [hpow]
    calc v + 2 ^ r * packR r vs + 1
        ≤ 2 ^ r + 2 ^ r * packR r vs := by omega
      _ = 2 ^ r * (packR r vs + 1) := by ring
      _ ≤ 2 ^ r * 2 ^ (r * vs.length) := Nat.mul_le_mul_left _ (by omega)

theorem pack_le (r : ℕ) : ∀ (xs ys : List ℕ), xs.length = ys.length →
    (∀ i, i < xs.length → xs.getD i 0 ≤ ys.getD i 0) →
    packR r xs ≤ packR r ys := by
  intro xs
  induction xs with
  | nil =>
    intro ys hlen _
    have : ys = [] := List.length_eq_zero.mp hlen.symm
    rw [this]
  | cons x xs ih =>
    intro ys hlen hle
    match ys with
    | [] => exact absurd hlen (by simp)
    | y :: ys =>
      simp only [packR]
      have h0 : x ≤ y := hle 0 (by simp)
      have htail : packR r xs ≤ packR r ys := by
        refine ih ys (by simpa using hlen) ?_
        intro i hi
        exact hle (i + 1) (by simpa using hi)
      have := Nat.mul_le_mul_left (2 ^ r) htail
      omega

theorem pack_dvd (r h : ℕ) : ∀ (xs : List ℕ), (∀ v ∈ xs, h ∣ v) →
    h ∣ packR r xs := by
  intro xs
  induction xs with
  | nil => intro _; simp [packR]
  | cons v vs ih =>
    intro hb
    simp only [packR]
    exact Nat.dvd_add (hb v (List.mem_cons_self v vs))
      (Dvd.dvd.mul_left (ih (fun w hw => hb w (List.mem_cons_of_mem v hw))) _)

theorem pack_mul (r c : ℕ) : ∀ (xs : List ℕ),
    packR r (xs.map (fun v => c * v)) = c * packR r xs := by
  intro xs
  induction xs with
  | nil => simp [packR]
  | cons v vs ih =>
    simp only [List.map_cons, packR, ih]
    ring

theorem pack_replicate_ones (r : ℕ) :
    ∀ (m : ℕ), packR r (List.replicate m (2 ^ r - 1)) = 2 ^ (r * m) - 1 := by
  intro m
  induction m with
  | zero => simp [packR]
  | succ n ih =>
    rw [List.replicate_succ]
    simp only [packR, ih]
    have hpow : 2 ^ (r * (n + 1)) = 2 ^ r * 2 ^ (r * n) := by
      rw [Nat.mul_add, Nat.mul_one, Nat.pow_add, Nat.mul_comm]
    have h1 : 1 ≤ 2 ^ r := Nat.one_le_two_pow
    have h2 : 1 ≤ 2 ^ (r * n) := Nat.one_le_two_pow
    have h3 : 2 ^ r * (2 ^ (r * n) - 1) = 2 ^ r * 2 ^ (r * n) - 2 ^ r := by
      rw [Nat.mul_sub, Nat.mul_one]
    rw [hpow, h3]
    have h4 : 2 ^ r ≤ 2 ^ r * 2 ^ (r * n) := Nat.le_mul_of_pos_right _ (by omega)
    omega

theorem pack_lor (r : ℕ) : ∀ (xs ys : List ℕ), xs.length = ys.length →
    (∀ v ∈ xs, v < 2 ^ r) → (∀ v ∈ ys, v < 2 ^ r) →
    packR r xs ||| packR r ys = packR r (List.zipWith (· ||| ·) xs ys) := by
  intro xs
  induction xs with
  | nil =>
    intro ys hlen _ _
    have : ys = [] := List.length_eq_zero.mp hlen.symm
    simp [this, packR]
  | cons x xs ih =>
    intro ys hlen hxb hyb
    match ys with
    | [] => exact absurd hlen (by simp)
    | y :: ys =>
      simp only [packR, List.zipWith_cons_cons]
      rw [lor_block r x (packR r xs) y (packR r ys)
        (hxb x (List.mem_cons_self x xs)) (hyb y (List.mem_cons_self y ys))]
      rw [ih ys (by simpa using hlen)
        (fun w hw => hxb w (List.mem_cons_of_mem x hw))
        (fun w hw => hyb w (List.mem_cons_of_mem y hw))]

theorem pack_land (r : ℕ) : ∀ (xs ys : List ℕ), xs.length = ys.length →
    (∀ v ∈ xs, v < 2 ^ r) → (∀ v ∈ ys, v < 2 ^ r) →
    packR r xs &&& packR r ys = packR r (List.zipWith (· &&& ·) xs ys) := by
  intro xs
  induction xs with
  | nil =>
    intro ys hlen _ _
    have : ys = [] := List.length_eq_zero.mp hlen.symm
    simp [this, packR]
  | cons x xs ih =>
    intro ys hlen hxb hyb
    match ys with
    | [] => exact absurd hlen (by simp)
    | y :: ys =>
      simp only [packR, List.zipWith_cons_cons]
      rw [land_block r x (packR r xs) y (packR r ys)
        (hxb x (List.mem_cons_self x xs)) (hyb y (List.mem_cons_self y ys))]
      rw [ih ys (by simpa using hlen)
        (fun w hw => hxb w (List.mem_cons_of_mem x hw))
        (fun w hw => hyb w (List.mem_cons_of_mem y hw))]

theorem pack_xor (r : ℕ) : ∀ (xs ys : List ℕ), xs.length = ys.length →
    (∀ v ∈ xs, v < 2 ^ r) → (∀ v ∈ ys, v < 2 ^ r) →
    packR r xs ^^^ packR r ys = packR r (List.zipWith (· ^^^ ·) xs ys) := by
  intro xs
  induction xs with
  | nil =>
    intro ys hlen _ _
    have : ys = [] := List.length_eq_zero.mp hlen.symm
    simp [this, packR]
  | cons x xs ih =>
    intro ys hlen hxb hyb
    match ys with
    | [] => exact absurd hlen (by simp)
    | y :: ys =>
      simp only [packR, List.zipWith_cons_cons]
      rw [xor_block r x (packR r xs) y (packR r ys)
        (hxb x (List.mem_cons_self x xs)) (hyb y (List.mem_cons_self y ys))]
      rw [ih ys (by simpa using hlen)
        (fun w hw => hxb w (List.mem_cons_of_mem x hw))
        (fun w hw => hyb w (List.mem_cons_of_mem y hw))]

theorem pack_sub (r : ℕ) : ∀ (xs ys : List ℕ), xs.length = ys.length →
    (∀ i, i < xs.length → ys.getD i 0 ≤ xs.getD i 0) →
    packR r xs - packR r ys = packR r (List.zipWith (· - ·) xs ys) := by
  intro xs
  induction xs with
  | nil =>
    intro ys hlen _
    have : ys = [] := List.length_eq_zero.mp hlen.symm
    simp [this, packR]
  | cons x xs ih =>
    intro ys hlen hle
    match ys with
    | [] => exact absurd hlen (by simp)
    | y :: ys =>
      simp only [packR, List.zipWith_cons_cons]
      have h0 : y ≤ x := hle 0 (by simp)
      have htail : packR r ys ≤ packR r xs := by
        refine pack_le r ys xs (by simpa using hlen.symm) ?_
        intro i hi
        have := hle (i + 1) (by
          simp only [List.length_cons]
          have hlen2 : xs.length = ys.length := by simpa using hlen
          omega)
        simpa using this
      rw [sub_block r x (packR r xs) y (packR r ys) h0 htail]
      rw [ih ys (by simpa using hlen) (fun i hi => by
        have := hle (i + 1) (by simp only [List.length_cons]; omega)
        simpa using this)]

/-- The first phase of the merge bit trick on a single r-bit register
pair, following the comment in merge_unsafe: the strict unsigned
register comparison
z = ((((y | H) - (x & !H)) | (y ^ x)) ^ (y | !x)) & H, with H the
register high bit and complement taken within the register width. -/
def hllRegCmp (r x y : ℕ) : ℕ :=
  ((((y ||| 2 ^ (r - 1)) - (x &&& ((2 ^ r - 1) ^^^ 2 ^ (r - 1)))) |||
      (y ^^^ x)) ^^^ (y ||| ((2 ^ r - 1) ^^^ x))) &&& 2 ^ (r - 1)

/-- The second phase on a single register: broadcast the comparison bit
across the register, (((z >> r-1 | H) - L) | H) ^ z. -/
def hllRegMask (r z : ℕ) : ℕ :=
  ((((z >>> (r - 1)) ||| 2 ^ (r - 1)) - 1) ||| 2 ^ (r - 1)) ^^^ z

/-- The selected register value, x ^ ((x ^ y) & mask). -/
def hllRegSelect (r x y : ℕ) : ℕ :=
  x ^^^ ((x ^^^ y) &&& hllRegMask r (hllRegCmp r x y))

theorem pow_two_split (r : ℕ) (hr : 1 ≤ r) : 2 ^ r = 2 * 2 ^ (r - 1) := by
  have h := pow_succ' 2 (r - 1)
  rwa [Nat.sub_add_cancel (by omega : 1 ≤ r)] at h

theorem not_msb_val (r : ℕ) (hr : 1 ≤ r) :
    (2 ^ r - 1) ^^^ 2 ^ (r - 1) = 2 ^ (r - 1) - 1 := by
  have h2 := pow_two_split r hr
  have h1 : 1 ≤ 2 ^ (r - 1) := Nat.one_le_two_pow
  have hb := xor_block (r - 1) (2 ^ (r - 1) - 1) 1 0 1 (by omega) (by positivity)
  rw [show (2 ^ (r - 1) - 1 + 2 ^ (r - 1) * 1 : ℕ) = 2 ^ r - 1 by omega] at hb
  rw [show ((0 : ℕ) + 2 ^ (r - 1) * 1) = 2 ^ (r - 1) by ring] at hb
  simpa using hb

theorem hllRegCmp_eq (r : ℕ) (hr : 2 ≤ r) (x y : ℕ) (hx : x < 2 ^ r)
    (hy : y < 2 ^ r) : hllRegCmp r x y = if y < x then 2 ^ (r - 1) else 0 := by
  have h2 := pow_two_split r (by omega)
  have hpos : 0 < 2 ^ (r - 1) := by positivity
  have h1 : 1 ≤ 2 ^ (r - 1) := hpos
  have hh2 : 2 ≤ 2 ^ (r - 1) := by
    calc (2 : ℕ) = 2 ^ 1 := rfl
    _ ≤ 2 ^ (r - 1) := Nat.pow_le_pow_right (by omega) (by omega)
  obtain ⟨xl, xh, hxeq, hxl, hxh⟩ :
      ∃ xl xh, x = xl + 2 ^ (r - 1) * xh ∧ xl < 2 ^ (r - 1) ∧ xh < 2 := by
    refine ⟨x % 2 ^ (r - 1), x / 2 ^ (r - 1), (Nat.mod_add_div x (2 ^ (r - 1))).symm,
      Nat.mod_lt x hpos, ?_⟩
    rw [Nat.div_lt_iff_lt_mul hpos]
    omega
  obtain ⟨yl, yh, hyeq, hyl, hyh⟩ :
      ∃ yl yh, y = yl + 2 ^ (r - 1) * yh ∧ yl < 2 ^ (r - 1) ∧ yh < 2 := by
    refine ⟨y % 2 ^ (r - 1), y / 2 ^ (r - 1), (Nat.mod_add_div y (2 ^ (r - 1))).symm,
      Nat.mod_lt y hpos, ?_⟩
    rw [Nat.div_lt_iff_lt_mul hpos]
    omega
  subst hxeq hyeq
  simp only [hllRegCmp]
  rw [not_msb_val r (by omega)]
  -- x & (2^(r-1) - 1) keeps the low part
  have e_and : (xl + 2 ^ (r - 1) * xh) &&& (2 ^ (r - 1) - 1) = xl := by
    have hb := land_block (r - 1) xl xh (2 ^ (r - 1) - 1) 0 hxl (by omega)
    rw [show (2 ^ (r - 1) - 1 + 2 ^ (r - 1) * 0 : ℕ) = 2 ^ (r - 1) - 1 by ring] at hb
    rw [hb, Nat.and_pow_two_sub_one_eq_mod, Nat.mod_eq_of_lt hxl]
    simp
  rw [e_and]
  -- y | H sets the register high bit
  have hy_or_1 : yh ||| 1 = 1 := by
    rcases (by omega : yh = 0 ∨ yh = 1) with rfl | rfl <;> rfl
  have e_or : (yl + 2 ^ (r - 1) * yh) ||| 2 ^ (r - 1) = yl + 2 ^ (r - 1) * 1 := by
    have hb := lor_block (r - 1) yl yh 0 1 hyl (by positivity)
    rw [show ((0 : ℕ) + 2 ^ (r - 1) * 1) = 2 ^ (r - 1) by ring] at hb
    rw [hb, hy_or_1, Nat.or_zero]
  rw [e_or]
  -- the borrow of the subtraction indicates the low-part comparison
  obtain ⟨dl, hd, hdl⟩ :
      ∃ dl, (yl + 2 ^ (r - 1) * 1) - xl
          = dl + 2 ^ (r - 1) * (if xl ≤ yl then 1 else 0) ∧ dl < 2 ^ (r - 1) := by
    by_cases hc : xl ≤ yl
    · rw [if_pos hc]
      exact ⟨yl - xl, by omega, by omega⟩
    · rw [if_neg hc]
      exact ⟨yl + 2 ^ (r - 1) - xl, by omega, by omega⟩
  rw [hd]
  -- y ^ x splits blockwise
  have e_xor : (yl + 2 ^ (r - 1) * yh) ^^^ (xl + 2 ^ (r - 1) * xh)
      = (yl ^^^ xl) + 2 ^ (r - 1) * (yh ^^^ xh) :=
    xor_block (r - 1) yl yh xl xh hyl hxl
  rw [e_xor]
  have e_or2 : (dl + 2 ^ (r - 1) * (if xl ≤ yl then 1 else 0)) |||
        ((yl ^^^ xl) + 2 ^ (r - 1) * (yh ^^^ xh))
      = (dl ||| (yl ^^^ xl)) +
          2 ^ (r - 1) * ((if xl ≤ yl then 1 else 0) ||| (yh ^^^ xh)) :=
    lor_block (r - 1) dl _ (yl ^^^ xl) (yh ^^^ xh) hdl (Nat.xor_lt_two_pow hyl hxl)
  rw [e_or2]
  -- !x within the register width
  have e_notx : (2 ^ r - 1) ^^^ (xl + 2 ^ (r - 1) * xh)
      = ((2 ^ (r - 1) - 1) ^^^ xl) + 2 ^ (r - 1) * (1 ^^^ xh) := by
    have hb := xor_block (r - 1) (2 ^ (r - 1) - 1) 1 xl xh (by omega) hxl
    rw [show (2 ^ (r - 1) - 1 + 2 ^ (r - 1) * 1 : ℕ) = 2 ^ r - 1 by omega] at hb
    exact hb
  rw [e_notx]
  have e_or3 : (yl + 2 ^ (r - 1) * yh) |||
        (((2 ^ (r - 1) - 1) ^^^ xl) + 2 ^ (r - 1) * (1 ^^^ xh))
      = (yl ||| ((2 ^ (r - 1) - 1) ^^^ xl)) + 2 ^ (r - 1) * (yh ||| (1 ^^^ xh)) :=
    lor_block (r - 1) yl yh ((2 ^ (r - 1) - 1) ^^^ xl) (1 ^^^ xh) hyl
      (Nat.xor_lt_two_pow (by omega) hxl)
  rw [e_or3]
  have e_xor2 : ((dl ||| (yl ^^^ xl)) +
        2 ^ (r - 1) * ((if xl ≤ yl then 1 else 0) ||| (yh ^^^ xh))) ^^^
        ((yl ||| ((2 ^ (r - 1) - 1) ^^^ xl)) + 2 ^ (r - 1) * (yh ||| (1 ^^^ xh)))
      = ((dl ||| (yl ^^^ xl)) ^^^ (yl ||| ((2 ^ (r - 1) - 1) ^^^ xl))) +
          2 ^ (r - 1) *
            (((if xl ≤ yl then 1 else 0) ||| (yh ^^^ xh)) ^^^ (yh ||| (1 ^^^ xh))) :=
    xor_block (r - 1) _ _ _ _
      (Nat.or_lt_two_pow hdl (Nat.xor_lt_two_pow hyl hxl))
      (Nat.or_lt_two_pow hyl (Nat.xor_lt_two_pow (by omega) hxl))
  rw [e_xor2]
  have e_and2 : (((dl ||| (yl ^^^ xl)) ^^^ (yl ||| ((2 ^ (r - 1) - 1) ^^^ xl))) +
        2 ^ (r - 1) *
          (((if xl ≤ yl then 1 else 0) ||| (yh ^^^ xh)) ^^^ (yh ||| (1 ^^^ xh)))) &&&
        2 ^ (r - 1)
      = 0 + 2 ^ (r - 1) *
          ((((if xl ≤ yl then 1 else 0) ||| (yh ^^^ xh)) ^^^ (yh ||| (1 ^^^ xh))) &&& 1) := by
    have hb := land_block (r - 1)
      ((dl ||| (yl ^^^ xl)) ^^^ (yl ||| ((2 ^ (r - 1) - 1) ^^^ xl)))
      (((if xl ≤ yl then 1 else 0) ||| (yh ^^^ xh)) ^^^ (yh ||| (1 ^^^ xh))) 0 1
      (Nat.xor_lt_two_pow (Nat.or_lt_two_pow hdl (Nat.xor_lt_two_pow hyl hxl))
        (Nat.or_lt_two_pow hyl (Nat.xor_lt_two_pow (by omega) hxl))) (by omega)
    rw [show ((0 : ℕ) + 2 ^ (r - 1) * 1) = 2 ^ (r - 1) by ring] at hb
    rw [hb, Nat.and_zero]
  rw [e_and2]
  -- case analysis on the three decision bits
  rcases (by omega : xh = 0 ∨ xh = 1) with rfl | rfl <;>
    rcases (by omega : yh = 0 ∨ yh = 1) with rfl | rfl <;>
      by_cases hc : xl ≤ yl <;>
        (first | rw [if_pos hc] | rw [if_neg hc]) <;>
        (first
          | (rw [if_pos (by omega)]; simp)
          | (rw [if_neg (by omega)]; simp))

theorem hllRegMask_cmp (r : ℕ) (hr : 2 ≤ r) (x y : ℕ) (hx : x < 2 ^ r)
    (hy : y < 2 ^ r) :
    hllRegMask r (hllRegCmp r x y) = if y < x then 0 else 2 ^ r - 1 := by
  have h2 := pow_two_split r (by omega)
  have hpos : 0 < 2 ^ (r - 1) := by positivity
  have hh2 : 2 ≤ 2 ^ (r - 1) := by
    calc (2 : ℕ) = 2 ^ 1 := rfl
    _ ≤ 2 ^ (r - 1) := Nat.pow_le_pow_right (by omega) (by omega)
  rw [hllRegCmp_eq r hr x y hx hy]
  by_cases hxy : y < x
  · rw [if_pos hxy, if_pos hxy]
    simp only [hllRegMask]
    have hshift : (2 ^ (r - 1)) >>> (r - 1) = 1 := by
      rw [Nat.shiftRight_eq_div_pow, Nat.div_self hpos]
    rw [hshift]
    have hor : (1 : ℕ) ||| 2 ^ (r - 1) = 1 + 2 ^ (r - 1) := by
      have hb := lor_block (r - 1) 1 0 0 1 (by omega) (by omega)
      rw [show ((1 : ℕ) + 2 ^ (r - 1) * 0) = 1 by ring] at hb
      rw [show ((0 : ℕ) + 2 ^ (r - 1) * 1) = 2 ^ (r - 1) by ring] at hb
      rw [hb]
      simp [Nat.mul_one]
    rw [hor, show (1 + 2 ^ (r - 1) - 1 : ℕ) = 2 ^ (r - 1) by omega,
      Nat.or_self, Nat.xor_self]
  · rw [if_neg hxy, if_neg hxy]
    simp only [hllRegMask]
    rw [Nat.zero_shiftRight, Nat.zero_or,
      show (2 ^ (r - 1) - 1 : ℕ) = 2 ^ (r - 1) - 1 from rfl]
    have hor : (2 ^ (r - 1) - 1 : ℕ) ||| 2 ^ (r - 1) = 2 ^ r - 1 := by
      have hb := lor_block (r - 1) (2 ^ (r - 1) - 1) 0 0 1 (by omega) (by omega)
      rw [show (2 ^ (r - 1) - 1 + 2 ^ (r - 1) * 0 : ℕ) = 2 ^ (r - 1) - 1 by ring] at hb
      rw [show ((0 : ℕ) + 2 ^ (r - 1) * 1) = 2 ^ (r - 1) by ring] at hb
      rw [hb]
      simp only [Nat.zero_or, Nat.or_zero]
      omega
    rw [hor, Nat.xor_zero]

theorem hllRegSelect_eq_max (r : ℕ) (hr : 2 ≤ r) (x y : ℕ) (hx : x < 2 ^ r)
    (hy : y < 2 ^ r) : hllRegSelect r x y = max x y := by
  simp only [hllRegSelect]
  rw [hllRegMask_cmp r hr x y hx hy]
  by_cases hxy : y < x
  · rw [if_pos hxy, Nat.and_zero, Nat.xor_zero, max_eq_left (le_of_lt hxy)]
  · rw [if_neg hxy]
    have hxor : (x ^^^ y) &&& (2 ^ r - 1) = x ^^^ y := by
      rw [Nat.and_pow_two_sub_one_eq_mod,
        Nat.mod_eq_of_lt (Nat.xor_lt_two_pow hx hy)]
    rw [hxor, ← Nat.xor_assoc, Nat.xor_self, Nat.zero_xor,
      max_eq_right (le_of_not_lt hxy)]

theorem le_or_right (a b : ℕ) : b ≤ a ||| b :=
  Nat.le_of_testBit (by intro i h2; rw [Nat.testBit_or]; simp [h2])

theorem zipWith_replicate_len_right {α β γ : Type} (f : α → β → γ) (c : β) :
    ∀ (xs : List α),
      List.zipWith f xs (List.replicate xs.length c) = xs.map (fun x => f x c) := by
  intro xs
  induction xs with
  | nil => rfl
  | cons x xs ih => simp [List.replicate_succ, ih]

theorem zipWith_replicate_len_left {α β γ : Type} (f : β → α → γ) (c : β) :
    ∀ (xs : List α),
      List.zipWith f (List.replicate xs.length c) xs = xs.map (fun x => f c x) := by
  intro xs
  induction xs with
  | nil => rfl
  | cons x xs ih => simp [List.replicate_succ, ih]

theorem zipWith_same {α β γ δ ε : Type} (g : γ → δ → ε) (f₁ : α → β → γ)
    (f₂ : α → β → δ) :
    ∀ (xs : List α) (ys : List β),
      List.zipWith g (List.zipWith f₁ xs ys) (List.zipWith f₂ xs ys)
        = List.zipWith (fun x y => g (f₁ x y) (f₂ x y)) xs ys := by
  intro xs
  induction xs with
  | nil => intro ys; rfl
  | cons x xs ih =>
    intro ys
    match ys with
    | [] => rfl
    | y :: ys => simp [ih]

theorem zipWith_map_self_left {α β γ : Type} (g : β → α → γ) (f : α → β) :
    ∀ (l : List α), List.zipWith g (l.map f) l = l.map (fun z => g (f z) z) := by
  intro l
  induction l with
  | nil => rfl
  | cons z l ih => simp [ih]

theorem zipWith_congr_mem {α β γ : Type} (f g : α → β → γ) :
    ∀ (xs : List α) (ys : List β), (∀ x ∈ xs, ∀ y ∈ ys, f x y = g x y) →
      List.zipWith f xs ys = List.zipWith g xs ys := by
  intro xs
  induction xs with
  | nil => intro ys _; rfl
  | cons x xs ih =>
    intro ys h
    match ys with
    | [] => rfl
    | y :: ys =>
      simp only [List.zipWith_cons_cons]
      rw [h x (List.mem_cons_self x xs) y (List.mem_cons_self y ys),
        ih ys (fun a ha b hb =>
          h a (List.mem_cons_of_mem x ha) b (List.mem_cons_of_mem y hb))]

theorem forall_mem_zipWith {α β γ : Type} {P : γ → Prop} (f : α → β → γ) :
    ∀ (xs : List α) (ys : List β), (∀ x ∈ xs, ∀ y ∈ ys, P (f x y)) →
      ∀ a ∈ List.zipWith f xs ys, P a := by
  intro xs
  induction xs with
  | nil => intro ys _ a ha; simp at ha
  | cons x xs ih =>
    intro ys h a ha
    match ys with
    | [] => simp at ha
    | y :: ys =>
      simp only [List.zipWith_cons_cons, List.mem_cons] at ha
      rcases ha with rfl | ha
      · exact h x (List.mem_cons_self x xs) y (List.mem_cons_self y ys)
      · exact ih ys (fun a ha b hb =>
          h a (List.mem_cons_of_mem x ha) b (List.mem_cons_of_mem y hb)) a ha

theorem getD_map_lt (f : ℕ → ℕ) (l : List ℕ) (i : ℕ) (hi : i < l.length) :
    (l.map f).getD i 0 = f (l.getD i 0) := by
  rw [List.getD_eq_getElem _ _ (by simpa using hi), List.getD_eq_getElem _ _ hi]
  simp

theorem pack_shift (r : ℕ) (hr : 1 ≤ r) : ∀ (zs : List ℕ),
    (∀ z ∈ zs, 2 ^ (r - 1) ∣ z) →
    packR r zs >>> (r - 1) = packR r (zs.map (fun z => z >>> (r - 1))) := by
  have h2 := pow_two_split r hr
  have hpos : 0 < 2 ^ (r - 1) := by positivity
  intro zs
  induction zs with
  | nil => intro _; simp [packR]
  | cons z zs ih =>
    intro hdvd
    simp only [packR, List.map_cons, Nat.shiftRight_eq_div_pow] at *
    have htail : 2 ^ (r - 1) ∣ packR r zs :=
      pack_dvd r (2 ^ (r - 1)) zs (fun w hw => hdvd w (List.mem_cons_of_mem z hw))
    have hsplit : z + 2 ^ r * packR r zs
        = z + (2 * packR r zs) * 2 ^ (r - 1) := by
      rw [h2]
      ring
    rw [hsplit, Nat.add_mul_div_right _ _ hpos]
    rw [← ih (fun w hw => hdvd w (List.mem_cons_of_mem z hw))]
    obtain ⟨c, hc⟩ := htail
    rw [hc, Nat.mul_div_cancel_left c hpos, h2]
    ring

/-- The packed most-significant-bit mask of merge_unsafe: the value of
the msb_mask bit field, one high bit per register. -/
def hllMsbMask (r m : ℕ) : ℕ := packR r (List.replicate m (2 ^ (r - 1)))

/-- The packed least-significant-bit mask, one low bit per register. -/
def hllLsbMask (r m : ℕ) : ℕ := packR r (List.replicate m 1)

/-- The first phase of merge_unsafe on the packed counter contents
(hyper_log_log.rs lines 733-768): the register-by-register strict
comparison z = ((((y | H) - (x & !H)) | (y ^ x)) ^ (y | !x)) & H, with
the multi-word slice operations read as operations on the packed value
and complement taken within the counter width r * m. -/
def hllCmpPacked (r m x y : ℕ) : ℕ :=
  ((((y ||| hllMsbMask r m) - (x &&& ((2 ^ (r * m) - 1) ^^^ hllMsbMask r m))) |||
      (y ^^^ x)) ^^^ (y ||| ((2 ^ (r * m) - 1) ^^^ x))) &&& hllMsbMask r m

/-- The second phase of merge_unsafe (hyper_log_log.rs lines 770-801):
mask expansion (((z >> r-1 | H) - L) | H) ^ z on the packed value; the
cross-word shift loop is the right shift of the packed value. -/
def hllMaskPacked (r m z : ℕ) : ℕ :=
  ((((z >>> (r - 1)) ||| hllMsbMask r m) - hllLsbMask r m) ||| hllMsbMask r m) ^^^ z

/-- The full word-parallel merge of merge_unsafe on packed counter
contents (hyper_log_log.rs lines 803-821): select from x and y with the
expanded mask, x ^ ((x ^ y) & mask). -/
def hllMergeUnsafeCalc (r m x y : ℕ) : ℕ :=
  x ^^^ ((x ^^^ y) &&& hllMaskPacked r m (hllCmpPacked r m x y))

theorem mem_replicate_bound {m c B : ℕ} (h : c < B) :
    ∀ v ∈ List.replicate m c, v < B := by
  intro v hv
  rw [List.eq_of_mem_replicate hv]
  exact h

/-- The packed comparison phase computes, register by register, the
single-register comparison: the packed operations decompose blockwise
because the masks keep every register subtraction borrow-free. -/
theorem cmpPacked_eq (r : ℕ) (hr : 2 ≤ r) (xs ys : List ℕ)
    (hlen : xs.length = ys.length) (hxs : ∀ v ∈ xs, v < 2 ^ r)
    (hys : ∀ v ∈ ys, v < 2 ^ r) :
    hllCmpPacked r xs.length (packR r xs) (packR r ys)
      = packR r (List.zipWith (hllRegCmp r) xs ys) := by
  have h2 := pow_two_split r (by omega)
  have h1 : 1 ≤ 2 ^ (r - 1) := Nat.one_le_two_pow
  have h1r : (1 : ℕ) ≤ 2 ^ r := Nat.one_le_two_pow
  have hhlt : 2 ^ (r - 1) < 2 ^ r := by omega
  have hFlt : 2 ^ r - 1 < 2 ^ r := by omega
  have hnotmsb : ((2 ^ r - 1) ^^^ 2 ^ (r - 1)) < 2 ^ r := Nat.xor_lt_two_pow hFlt hhlt
  have hfull : (2 ^ (r * xs.length) - 1)
      = packR r (List.replicate xs.length (2 ^ r - 1)) :=
    (pack_replicate_ones r xs.length).symm
  have hS1 : (2 ^ (r * xs.length) - 1) ^^^ hllMsbMask r xs.length
      = packR r (List.replicate xs.length ((2 ^ r - 1) ^^^ 2 ^ (r - 1))) := by
    rw [hfull, hllMsbMask, pack_xor r _ _ (by simp)
      (mem_replicate_bound hFlt) (mem_replicate_bound hhlt)]
    simp
  have hS2 : packR r xs &&& ((2 ^ (r * xs.length) - 1) ^^^ hllMsbMask r xs.length)
      = packR r (xs.map (fun x => x &&& ((2 ^ r - 1) ^^^ 2 ^ (r - 1)))) := by
    rw [hS1, pack_land r xs _ (by simp) hxs (mem_replicate_bound hnotmsb)]
    rw [zipWith_replicate_len_right]
  have hS3 : packR r ys ||| hllMsbMask r xs.length
      = packR r (ys.map (fun y => y ||| 2 ^ (r - 1))) := by
    rw [hllMsbMask, hlen, pack_lor r ys _ (by simp) hys (mem_replicate_bound hhlt)]
    rw [zipWith_replicate_len_right]
  have hS4 : packR r (ys.map (fun y => y ||| 2 ^ (r - 1))) -
        packR r (xs.map (fun x => x &&& ((2 ^ r - 1) ^^^ 2 ^ (r - 1))))
      = packR r (List.zipWith
          (fun y x => (y ||| 2 ^ (r - 1)) - (x &&& ((2 ^ r - 1) ^^^ 2 ^ (r - 1))))
          ys xs) := by
    rw [pack_sub r _ _ (by simp [hlen]) ?_]
    · rw [List.zipWith_map]
    · intro i hi
      simp only [List.length_map] at hi
      rw [getD_map_lt _ _ _ (by omega), getD_map_lt _ _ _ (by rw [← hlen] at hi; omega)]
      have hle1 : xs.getD i 0 &&& ((2 ^ r - 1) ^^^ 2 ^ (r - 1)) ≤ 2 ^ (r - 1) - 1 := by
        rw [not_msb_val r (by omega)]
        exact Nat.and_le_right
      have hle2 : 2 ^ (r - 1) ≤ ys.getD i 0 ||| 2 ^ (r - 1) := le_or_right _ _
      omega
  have hS5 : packR r ys ^^^ packR r xs
      = packR r (List.zipWith (fun y x => y ^^^ x) ys xs) :=
    pack_xor r ys xs hlen.symm hys hxs
  have hsubBound : ∀ a ∈ List.zipWith
      (fun y x => (y ||| 2 ^ (r - 1)) - (x &&& ((2 ^ r - 1) ^^^ 2 ^ (r - 1)))) ys xs,
      a < 2 ^ r := by
    refine forall_mem_zipWith _ ys xs ?_
    intro y hy x hx
    calc (y ||| 2 ^ (r - 1)) - (x &&& ((2 ^ r - 1) ^^^ 2 ^ (r - 1)))
        ≤ y ||| 2 ^ (r - 1) := Nat.sub_le _ _
    _ < 2 ^ r := Nat.or_lt_two_pow (hys y hy) hhlt
  have hS6 : packR r (List.zipWith
        (fun y x => (y ||| 2 ^ (r - 1)) - (x &&& ((2 ^ r - 1) ^^^ 2 ^ (r - 1)))) ys xs) |||
        packR r (List.zipWith (fun y x => y ^^^ x) ys xs)
      = packR r (List.zipWith
          (fun y x => ((y ||| 2 ^ (r - 1)) - (x &&& ((2 ^ r - 1) ^^^ 2 ^ (r - 1)))) |||
            (y ^^^ x)) ys xs) := by
    rw [pack_lor r _ _ (by simp) hsubBound
      (forall_mem_zipWith _ ys xs (fun y hy x hx => Nat.xor_lt_two_pow (hys y hy) (hxs x hx)))]
    rw [zipWith_same]
  have hS7 : (2 ^ (r * xs.length) - 1) ^^^ packR r xs
      = packR r (xs.map (fun x => (2 ^ r - 1) ^^^ x)) := by
    rw [hfull, pack_xor r _ xs (by simp) (mem_replicate_bound hFlt) hxs]
    rw [zipWith_replicate_len_left]
  have hS8 : packR r ys ||| packR r (xs.map (fun x => (2 ^ r - 1) ^^^ x))
      = packR r (List.zipWith (fun y x => y ||| ((2 ^ r - 1) ^^^ x)) ys xs) := by
    rw [pack_lor r ys _ (by simp [hlen]) hys ?_]
    · rw [List.zipWith_map_right]
    · intro v hv
      obtain ⟨x, hx, rfl⟩ := List.mem_map.mp hv
      exact Nat.xor_lt_two_pow hFlt (hxs x hx)
  have hS9 : packR r (List.zipWith
        (fun y x => ((y ||| 2 ^ (r - 1)) - (x &&& ((2 ^ r - 1) ^^^ 2 ^ (r - 1)))) |||
          (y ^^^ x)) ys xs) ^^^
        packR r (List.zipWith (fun y x => y ||| ((2 ^ r - 1) ^^^ x)) ys xs)
      = packR r (List.zipWith
          (fun y x => (((y ||| 2 ^ (r - 1)) - (x &&& ((2 ^ r - 1) ^^^ 2 ^ (r - 1)))) |||
            (y ^^^ x)) ^^^ (y ||| ((2 ^ r - 1) ^^^ x))) ys xs) := by
    rw [pack_xor r _ _ (by simp) ?_ ?_]
    · rw [zipWith_same]
    · refine forall_mem_zipWith _ ys xs ?_
      intro y hy x hx
      exact Nat.or_lt_two_pow
        (lt_of_le_of_lt (Nat.sub_le _ _) (Nat.or_lt_two_pow (hys y hy) hhlt))
        (Nat.xor_lt_two_pow (hys y hy) (hxs x hx))
    · refine forall_mem_zipWith _ ys xs ?_
      intro y hy x hx
      exact Nat.or_lt_two_pow (hys y hy) (Nat.xor_lt_two_pow hFlt (hxs x hx))
  have hS10 : packR r (List.zipWith
        (fun y x => (((y ||| 2 ^ (r - 1)) - (x &&& ((2 ^ r - 1) ^^^ 2 ^ (r - 1)))) |||
          (y ^^^ x)) ^^^ (y ||| ((2 ^ r - 1) ^^^ x))) ys xs) &&& hllMsbMask r xs.length
      = packR r (List.zipWith
          (fun y x => ((((y ||| 2 ^ (r - 1)) - (x &&& ((2 ^ r - 1) ^^^ 2 ^ (r - 1)))) |||
            (y ^^^ x)) ^^^ (y ||| ((2 ^ r - 1) ^^^ x))) &&& 2 ^ (r - 1)) ys xs) := by
    rw [hllMsbMask, pack_land r _ _ ?_ ?_ (mem_replicate_bound hhlt)]
    · have hlz : (List.zipWith
          (fun y x => (((y ||| 2 ^ (r - 1)) - (x &&& ((2 ^ r - 1) ^^^ 2 ^ (r - 1)))) |||
            (y ^^^ x)) ^^^ (y ||| ((2 ^ r - 1) ^^^ x))) ys xs).length = xs.length := by
        simp [hlen]
      rw [show List.replicate xs.length (2 ^ (r - 1))
          = List.replicate (List.zipWith
            (fun y x => (((y ||| 2 ^ (r - 1)) -
              (x &&& ((2 ^ r - 1) ^^^ 2 ^ (r - 1)))) |||
              (y ^^^ x)) ^^^ (y ||| ((2 ^ r - 1) ^^^ x))) ys xs).length (2 ^ (r - 1))
        from by rw [hlz]]
      rw [zipWith_replicate_len_right, List.map_zipWith]
    · simp [hlen]
    · refine forall_mem_zipWith _ ys xs ?_
      intro y hy x hx
      exact Nat.xor_lt_two_pow
        (Nat.or_lt_two_pow
          (lt_of_le_of_lt (Nat.sub_le _ _) (Nat.or_lt_two_pow (hys y hy) hhlt))
          (Nat.xor_lt_two_pow (hys y hy) (hxs x hx)))
        (Nat.or_lt_two_pow (hys y hy) (Nat.xor_lt_two_pow hFlt (hxs x hx)))
  simp only [hllCmpPacked]
  rw [hS3, hS2, hS4, hS5, hS6, hS7, hS8, hS9, hS10, List.zipWith_comm]
  exact congrArg (packR r) (zipWith_congr_mem _ _ xs ys (fun x _ y _ => rfl))

/-- The packed mask-expansion phase computes, register by register, the
single-register mask expansion, because every register of the comparison
output holds either the register high bit or zero. -/
theorem maskPacked_eq (r : ℕ) (hr : 2 ≤ r) (zs : List ℕ)
    (hzs : ∀ z ∈ zs, z = 2 ^ (r - 1) ∨ z = 0) :
    hllMaskPacked r zs.length (packR r zs) = packR r (zs.map (hllRegMask r)) := by
  have h2 := pow_two_split r (by omega)
  have h1 : 1 ≤ 2 ^ (r - 1) := Nat.one_le_two_pow
  have hhlt : 2 ^ (r - 1) < 2 ^ r := by omega
  have hzb : ∀ z ∈ zs, z < 2 ^ r := by
    intro z hz
    rcases hzs z hz with rfl | rfl
    · exact hhlt
    · positivity
  have hdvd : ∀ z ∈ zs, 2 ^ (r - 1) ∣ z := by
    intro z hz
    rcases hzs z hz with rfl | rfl
    · exact dvd_refl _
    · exact dvd_zero _
  have hshiftb : ∀ v ∈ zs.map (fun z => z >>> (r - 1)), v < 2 ^ r := by
    intro v hv
    obtain ⟨z, hz, rfl⟩ := List.mem_map.mp hv
    rw [Nat.shiftRight_eq_div_pow]
    exact lt_of_le_of_lt (Nat.div_le_self _ _) (hzb z hz)
  have hT0 : packR r zs >>> (r - 1) = packR r (zs.map (fun z => z >>> (r - 1))) :=
    pack_shift r (by omega) zs hdvd
  have hT1 : packR r (zs.map (fun z => z >>> (r - 1))) ||| hllMsbMask r zs.length
      = packR r (zs.map (fun z => (z >>> (r - 1)) ||| 2 ^ (r - 1))) := by
    rw [hllMsbMask, pack_lor r _ _ (by simp) hshiftb (mem_replicate_bound hhlt)]
    rw [show List.replicate zs.length (2 ^ (r - 1))
        = List.replicate (zs.map (fun z => z >>> (r - 1))).length (2 ^ (r - 1))
      from by simp]
    rw [zipWith_replicate_len_right, List.map_map]
    rfl
  have hT1b : ∀ v ∈ zs.map (fun z => (z >>> (r - 1)) ||| 2 ^ (r - 1)), v < 2 ^ r := by
    intro v hv
    obtain ⟨z, hz, rfl⟩ := List.mem_map.mp hv
    refine Nat.or_lt_two_pow ?_ hhlt
    rw [Nat.shiftRight_eq_div_pow]
    exact lt_of_le_of_lt (Nat.div_le_self _ _) (hzb z hz)
  have hT2 : packR r (zs.map (fun z => (z >>> (r - 1)) ||| 2 ^ (r - 1))) -
        hllLsbMask r zs.length
      = packR r (zs.map (fun z => ((z >>> (r - 1)) ||| 2 ^ (r - 1)) - 1)) := by
    rw [hllLsbMask, pack_sub r _ _ (by simp) ?_]
    · rw [show List.replicate zs.length 1
          = List.replicate (zs.map (fun z => (z >>> (r - 1)) ||| 2 ^ (r - 1))).length 1
        from by simp]
      rw [zipWith_replicate_len_right, List.map_map]
      rfl
    · intro i hi
      simp only [List.length_map] at hi
      rw [getD_map_lt _ _ _ hi]
      have hrep : (List.replicate zs.length 1).getD i 0 = 1 := by
        rw [List.getD_eq_getElem _ _ (by simpa using hi)]
        simp
      rw [hrep]
      calc (1 : ℕ) ≤ 2 ^ (r - 1) := h1
      _ ≤ (zs.getD i 0 >>> (r - 1)) ||| 2 ^ (r - 1) := le_or_right _ _
  have hT2b : ∀ v ∈ zs.map (fun z => ((z >>> (r - 1)) ||| 2 ^ (r - 1)) - 1),
      v < 2 ^ r := by
    intro v hv
    obtain ⟨z, hz, rfl⟩ := List.mem_map.mp hv
    refine lt_of_le_of_lt (Nat.sub_le _ _) ?_
    refine Nat.or_lt_two_pow ?_ hhlt
    rw [Nat.shiftRight_eq_div_pow]
    exact lt_of_le_of_lt (Nat.div_le_self _ _) (hzb z hz)
  have hT3 : packR r (zs.map (fun z => ((z >>> (r - 1)) ||| 2 ^ (r - 1)) - 1)) |||
        hllMsbMask r zs.length
      = packR r (zs.map (fun z => (((z >>> (r - 1)) ||| 2 ^ (r - 1)) - 1) |||
          2 ^ (r - 1))) := by
    rw [hllMsbMask, pack_lor r _ _ (by simp) hT2b (mem_replicate_bound hhlt)]
    rw [show List.replicate zs.length (2 ^ (r - 1))
        = List.replicate
            (zs.map (fun z => ((z >>> (r - 1)) ||| 2 ^ (r - 1)) - 1)).length
            (2 ^ (r - 1))
      from by simp]
    rw [zipWith_replicate_len_right, List.map_map]
    rfl
  have hT3b : ∀ v ∈ zs.map (fun z => (((z >>> (r - 1)) ||| 2 ^ (r - 1)) - 1) |||
      2 ^ (r - 1)), v < 2 ^ r := by
    intro v hv
    obtain ⟨z, hz, rfl⟩ := List.mem_map.mp hv
    refine Nat.or_lt_two_pow ?_ hhlt
    refine lt_of_le_of_lt (Nat.sub_le _ _) ?_
    refine Nat.or_lt_two_pow ?_ hhlt
    rw [Nat.shiftRight_eq_div_pow]
    exact lt_of_le_of_lt (Nat.div_le_self _ _) (hzb z hz)
  simp only [hllMaskPacked]
  rw [hT0, hT1, hT2, hT3]
  rw [pack_xor r _ zs (by simp) hT3b hzb]
  rw [zipWith_map_self_left]
  exact congrArg (packR r) (List.map_congr_left (fun z _ => rfl))

theorem zipWith_zip_right_self {α β γ δ : Type} (f : α → γ → δ) (g : α → β → γ) :
    ∀ (xs : List α) (ys : List β),
      List.zipWith f xs (List.zipWith g xs ys)
        = List.zipWith (fun x y => f x (g x y)) xs ys := by
  intro xs
  induction xs with
  | nil => intro ys; rfl
  | cons x xs ih =>
    intro ys
    match ys with
    | [] => rfl
    | y :: ys => simp [ih]

theorem zipWith_swap_shared {α β γ δ : Type} (f : β → γ → δ) (g : α → β → γ) :
    ∀ (xs : List α) (ys : List β),
      List.zipWith f ys (List.zipWith g xs ys)
        = List.zipWith (fun x y => f y (g x y)) xs ys := by
  intro xs
  induction xs with
  | nil => intro ys; cases ys <;> rfl
  | cons x xs ih =>
    intro ys
    match ys with
    | [] => rfl
    | y :: ys => simp [ih]

theorem hllRegMask_lt (r z : ℕ) (hr : 2 ≤ r) (hz : z < 2 ^ r) :
    hllRegMask r z < 2 ^ r := by
  have h2 := pow_two_split r (by omega)
  have h1 : 1 ≤ 2 ^ (r - 1) := Nat.one_le_two_pow
  have hhlt : 2 ^ (r - 1) < 2 ^ r := by omega
  refine Nat.xor_lt_two_pow ?_ hz
  refine Nat.or_lt_two_pow ?_ hhlt
  refine lt_of_le_of_lt (Nat.sub_le _ _) ?_
  refine Nat.or_lt_two_pow ?_ hhlt
  rw [Nat.shiftRight_eq_div_pow]
  exact lt_of_le_of_lt (Nat.div_le_self _ _) hz

/-- The word-parallel merge of merge_unsafe computes exactly the
register-wise maximum on packed counter contents. -/
theorem mergeUnsafeCalc_eq (r : ℕ) (hr : 2 ≤ r) (xs ys : List ℕ)
    (hlen : xs.length = ys.length) (hxs : ∀ v ∈ xs, v < 2 ^ r)
    (hys : ∀ v ∈ ys, v < 2 ^ r) :
    hllMergeUnsafeCalc r xs.length (packR r xs) (packR r ys)
      = packR r (List.zipWith max xs ys) := by
  have h2 := pow_two_split r (by omega)
  have h1 : 1 ≤ 2 ^ (r - 1) := Nat.one_le_two_pow
  have hhlt : 2 ^ (r - 1) < 2 ^ r := by omega
  simp only [hllMergeUnsafeCalc]
  rw [cmpPacked_eq r hr xs ys hlen hxs hys]
  have hzmem : ∀ z ∈ List.zipWith (hllRegCmp r) xs ys, z = 2 ^ (r - 1) ∨ z = 0 := by
    refine forall_mem_zipWith _ xs ys ?_
    intro x hx y hy
    rw [hllRegCmp_eq r hr x y (hxs x hx) (hys y hy)]
    by_cases h : y < x
    · rw [if_pos h]; exact Or.inl rfl
    · rw [if_neg h]; exact Or.inr rfl
  have hzl : (List.zipWith (hllRegCmp r) xs ys).length = xs.length := by
    simp [hlen]
  rw [show xs.length = (List.zipWith (hllRegCmp r) xs ys).length from hzl.symm]
  rw [maskPacked_eq r hr _ hzmem]
  have hzb : ∀ z ∈ List.zipWith (hllRegCmp r) xs ys, z < 2 ^ r := by
    intro z hz
    rcases hzmem z hz with rfl | rfl
    · exact hhlt
    · positivity
  rw [pack_xor r xs ys hlen hxs hys]
  have hmaskb : ∀ v ∈ (List.zipWith (hllRegCmp r) xs ys).map (hllRegMask r),
      v < 2 ^ r := by
    intro v hv
    obtain ⟨z, hz, rfl⟩ := List.mem_map.mp hv
    exact hllRegMask_lt r z hr (hzb z hz)
  rw [pack_land r _ _ (by simp [hlen]) ?_ hmaskb]
  · rw [List.map_zipWith, zipWith_same]
    rw [pack_xor r xs _ (by simp [hlen]) hxs ?_]
    · rw [zipWith_zip_right_self]
      refine congrArg (packR r) ?_
      refine zipWith_congr_mem _ _ xs ys ?_
      intro x hx y hy
      exact hllRegSelect_eq_max r hr x y (hxs x hx) (hys y hy)
    · refine forall_mem_zipWith _ xs ys ?_
      intro x hx y hy
      exact lt_of_le_of_lt Nat.and_le_left (Nat.xor_lt_two_pow (hxs x hx) (hys y hy))
  · refine forall_mem_zipWith _ xs ys ?_
    intro x hx y hy
    exact Nat.xor_lt_two_pow (hxs x hx) (hys y hy)

/-- Model of HyperLogLogCounter::merge (hyper_log_log.rs lines
1168-1186): the register loop writes the other value wherever it is
strictly greater; the other counter is only read. Returns (new self
registers, other registers). -/
def hllMerge (a b : List ℕ) : List ℕ × List ℕ :=
  (List.zipWith (fun x y => if x < y then y else x) a b, b)

theorem hllMerge_fst (xs ys : List ℕ) :
    (hllMerge xs ys).1 = List.zipWith max xs ys := by
  simp only [hllMerge]
  refine zipWith_congr_mem _ _ xs ys ?_
  intro x _ y _
  by_cases h : x < y
  · rw [if_pos h, max_eq_right (le_of_lt h)]
  · rw [if_neg h, max_eq_left (le_of_not_lt h)]

/-- C1: merging b into a sets each register of a to the register-wise
maximum and leaves b unchanged, both for the register loop of merge and
for the word-parallel bit-trick path of merge_unsafe on the packed
contents; consequently merge(a, b) followed by merge(b, a) yields equal
register vectors, each the register-wise maximum of the originals. -/
theorem hll_merge_register_wise_max (r : ℕ) (hr : 2 ≤ r) (xs ys : List ℕ)
    (hlen : xs.length = ys.length) (hxs : ∀ v ∈ xs, v < 2 ^ r)
    (hys : ∀ v ∈ ys, v < 2 ^ r) :
    (hllMerge xs ys).1 = List.zipWith max xs ys ∧
    (hllMerge xs ys).2 = ys ∧
    hllMergeUnsafeCalc r xs.length (packR r xs) (packR r ys)
      = packR r (List.zipWith max xs ys) ∧
    (hllMerge ys (hllMerge xs ys).1).1 = List.zipWith max xs ys := by
  refine ⟨hllMerge_fst xs ys, rfl, mergeUnsafeCalc_eq r hr xs ys hlen hxs hys, ?_⟩
  rw [hllMerge_fst, hllMerge_fst, zipWith_swap_shared]
  refine zipWith_congr_mem _ _ xs ys ?_
  intro x _ y _
  rw [max_comm x y, ← max_assoc, max_self, max_comm y x]

/-- Witness for the merge theorem at r = 2, m = 2: registers [1, 2] and
[2, 1] merge to [2, 2] along both paths. -/
theorem hll_merge_register_wise_max_witness :
    hllMergeUnsafeCalc 2 2 (packR 2 [1, 2]) (packR 2 [2, 1]) = packR 2 [2, 2] ∧
    (hllMerge [1, 2] [2, 1]).1 = [2, 2] ∧
    (hllMerge [2, 1] (hllMerge [1, 2] [2, 1]).1).1 = [2, 2] := by
  have h := hll_merge_register_wise_max 2 (by omega) [1, 2] [2, 1] rfl
    (by decide) (by decide)
  have e2 : List.zipWith max [1, 2] [2, 1] = [2, 2] := by decide
  have h3 := h.2.2.1
  rw [e2] at h3
  have h1 := h.1
  rw [e2] at h1
  have h4 := h.2.2.2
  rw [e2] at h4
  exact ⟨h3, h1, h4⟩

/-! ## Graph reachability core for the ExactSumSweep steps

The ExactSumSweep steps read BFS distances and eccentricities of the
graph and of its transpose. A graph on nodes 0..n-1 is an adjacency-list
function; the BFS ball of radius k is defined by frontier expansion,
distances as the least radius containing the node, eccentricities as the
supremum of distances over the reachable set.
-/

/-- One BFS expansion: a visited set together with all successors of its
members. -/
def ballStep (succ : ℕ → List ℕ) (S : Finset ℕ) : Finset ℕ :=
  S ∪ S.biUnion (fun u => (succ u).toFinset)

/-- The set of nodes at distance at most k from s. -/
def ball (succ : ℕ → List ℕ) (s : ℕ) : ℕ → Finset ℕ
  | 0 => {s}
  | k + 1 => ballStep succ (ball succ s k)

/-- Wellformedness: adjacency lists of live nodes mention only live
nodes. -/
def GraphWf (n : ℕ) (succ : ℕ → List ℕ) : Prop :=
  ∀ v, v < n → ∀ u ∈ succ v, u < n

theorem self_mem_ball (succ : ℕ → List ℕ) (s : ℕ) : ∀ k, s ∈ ball succ s k := by
  intro k
  induction k with
  | zero => simp [ball]
  | succ k ih => exact Finset.mem_union_left _ ih

theorem ball_mono_one (succ : ℕ → List ℕ) (s k : ℕ) :
    ball succ s k ⊆ ball succ s (k + 1) :=
  Finset.subset_union_left

theorem ball_mono (succ : ℕ → List ℕ) (s : ℕ) : ∀ {j k : ℕ}, j ≤ k →
    ball succ s j ⊆ ball succ s k := by
  intro j k hjk
  induction k with
  | zero =>
    have : j = 0 := by omega
    rw [this]
  | succ k ih =>
    rcases Nat.eq_or_lt_of_le hjk with rfl | hlt
    · exact subset_refl _
    · exact subset_trans (ih (by omega)) (ball_mono_one succ s k)

theorem mem_ballStep_of_succ (succ : ℕ → List ℕ) (S : Finset ℕ) (u v : ℕ)
    (hu : u ∈ S) (hv : v ∈ succ u) : v ∈ ballStep succ S := by
  refine Finset.mem_union_right _ ?_
  refine Finset.mem_biUnion.mpr ⟨u, hu, ?_⟩
  simpa using hv

theorem ball_subset_range (n : ℕ) (succ : ℕ → List ℕ) (wf : GraphWf n succ)
    (s : ℕ) (hs : s < n) : ∀ k, ball succ s k ⊆ Finset.range n := by
  intro k
  induction k with
  | zero => simpa [ball] using hs
  | succ k ih =>
    intro v hv
    rcases Finset.mem_union.mp hv with hv | hv
    · exact ih hv
    · obtain ⟨u, hu, hv⟩ := Finset.mem_biUnion.mp hv
      have hun : u < n := by simpa using ih hu
      simp only [List.mem_toFinset] at hv
      simpa using wf u hun v hv

theorem ball_trans (succ : ℕ → List ℕ) (s u v : ℕ) :
    ∀ (j k : ℕ), u ∈ ball succ s j → v ∈ ball succ u k →
      v ∈ ball succ s (j + k) := by
  intro j k
  induction k generalizing v with
  | zero =>
    intro hu hv
    have : v = u := by simpa [ball] using hv
    rw [this, Nat.add_zero]
    exact hu
  | succ k ih =>
    intro hu hv
    rcases Finset.mem_union.mp hv with hv | hv
    · exact ball_mono succ s (by omega) (ih v hu hv)
    · obtain ⟨w, hw, hvw⟩ := Finset.mem_biUnion.mp hv
      simp only [List.mem_toFinset] at hvw
      exact mem_ballStep_of_succ succ _ w v (ih w hu hw) hvw

theorem ballStep_mono (succ : ℕ → List ℕ) (S T : Finset ℕ) (h : S ⊆ T) :
    ballStep succ S ⊆ ballStep succ T := by
  intro v hv
  rcases Finset.mem_union.mp hv with hv | hv
  · exact Finset.mem_union_left _ (h hv)
  · obtain ⟨u, hu, hvu⟩ := Finset.mem_biUnion.mp hv
    exact Finset.mem_union_right _ (Finset.mem_biUnion.mpr ⟨u, h hu, hvu⟩)

theorem ball_stab (succ : ℕ → List ℕ) (s k : ℕ)
    (h : ball succ s (k + 1) = ball succ s k) :
    ∀ j, ball succ s (k + j) = ball succ s k := by
  intro j
  induction j with
  | zero => rfl
  | succ m ih =>
    have : ball succ s (k + m + 1) = ballStep succ (ball succ s (k + m)) := rfl
    rw [show k + (m + 1) = k + m + 1 by omega, this, ih]
    exact h

theorem ball_card_lower (succ : ℕ → List ℕ) (s : ℕ) :
    ∀ k, (∀ j, j < k → ball succ s (j + 1) ≠ ball succ s j) →
      k + 1 ≤ (ball succ s k).card := by
  intro k
  induction k with
  | zero => intro _; simp [ball]
  | succ k ih =>
    intro h
    have hk := ih (fun j hj => h j (by omega))
    have hne : ball succ s (k + 1) ≠ ball succ s k := h k (by omega)
    have hss : ball succ s k ⊂ ball succ s (k + 1) :=
      Finset.ssubset_iff_subset_ne.mpr ⟨ball_mono_one succ s k, fun he => hne he.symm⟩
    have := Finset.card_lt_card hss
    omega

theorem exists_ball_stab (n : ℕ) (succ : ℕ → List ℕ) (wf : GraphWf n succ)
    (s : ℕ) (hs : s < n) :
    ∃ k, k ≤ n - 1 ∧ ball succ s (k + 1) = ball succ s k := by
  by_contra hcon
  push_neg at hcon
  have hall : ∀ j, j < n - 1 + 1 → ball succ s (j + 1) ≠ ball succ s j := by
    intro j hj
    exact hcon j (by omega)
  have hcard := ball_card_lower succ s (n - 1 + 1) hall
  have hsub := ball_subset_range n succ wf s hs (n - 1 + 1)
  have := Finset.card_le_card hsub
  rw [Finset.card_range] at this
  omega

theorem ball_mem_saturate (n : ℕ) (succ : ℕ → List ℕ) (wf : GraphWf n succ)
    (s : ℕ) (hs : s < n) (v k : ℕ) (hv : v ∈ ball succ s k) :
    v ∈ ball succ s (n - 1) := by
  obtain ⟨k0, hk0, hstab⟩ := exists_ball_stab n succ wf s hs
  rcases le_or_lt k (n - 1) with hk | hk
  · exact ball_mono succ s hk hv
  · have hsk : ball succ s k = ball succ s k0 := by
      have : k = k0 + (k - k0) := by omega
      rw [this]
      have h2 : ball succ s (k0 + 1) = ball succ s k0 := hstab
      have := ball_stab succ s k0 h2 (k - k0)
      exact this
    rw [hsk] at hv
    exact ball_mono succ s hk0 hv

theorem ball_mem_n (n : ℕ) (succ : ℕ → List ℕ) (wf : GraphWf n succ)
    (s : ℕ) (hs : s < n) (v k : ℕ) (hv : v ∈ ball succ s k) :
    v ∈ ball succ s n :=
  ball_mono succ s (by omega) (ball_mem_saturate n succ wf s hs v k hv)

/-- The least radius search loop: starting at radius k with the given
fuel, return the first radius whose ball contains v. -/
def distSearch (succ : ℕ → List ℕ) (s v : ℕ) : ℕ → ℕ → ℕ
  | k, 0 => k
  | k, fuel + 1 => if v ∈ ball succ s k then k else distSearch succ s v (k + 1) fuel

/-- The BFS distance from s to v: the least radius whose ball contains
v, searched up to n; meaningful when v is reachable from s. -/
def distN (n : ℕ) (succ : ℕ → List ℕ) (s v : ℕ) : ℕ := distSearch succ s v 0 n

theorem distSearch_not_mem (succ : ℕ → List ℕ) (s v : ℕ) :
    ∀ (fuel k : ℕ), (∀ j, j < k → v ∉ ball succ s j) →
      ∀ j, j < distSearch succ s v k fuel → v ∉ ball succ s j := by
  intro fuel
  induction fuel with
  | zero => intro k h j hj; exact h j hj
  | succ m ih =>
    intro k h j hj
    simp only [distSearch] at hj
    by_cases hm : v ∈ ball succ s k
    · rw [if_pos hm] at hj
      exact h j hj
    · rw [if_neg hm] at hj
      refine ih (k + 1) ?_ j hj
      intro i hi
      rcases Nat.lt_or_ge i k with hik | hik
      · exact h i hik
      · have : i = k := by omega
        rw [this]
        exact hm

theorem distSearch_le (succ : ℕ → List ℕ) (s v : ℕ) :
    ∀ (fuel k j : ℕ), j ≤ fuel → v ∈ ball succ s (k + j) →
      distSearch succ s v k fuel ≤ k + j ∧
        v ∈ ball succ s (distSearch succ s v k fuel) := by
  intro fuel
  induction fuel with
  | zero =>
    intro k j hj hv
    have : j = 0 := by omega
    subst this
    exact ⟨by simp [distSearch], by simpa [distSearch] using hv⟩
  | succ m ih =>
    intro k j hj hv
    simp only [distSearch]
    by_cases hm : v ∈ ball succ s k
    · rw [if_pos hm]
      exact ⟨by omega, hm⟩
    · rw [if_neg hm]
      have hj0 : j ≠ 0 := by
        rintro rfl
        rw [Nat.add_zero] at hv
        exact hm hv
      have := ih (k + 1) (j - 1) (by omega) (by
        rw [show k + 1 + (j - 1) = k + j by omega]
        exact hv)
      exact ⟨by omega, this.2⟩

theorem dist_le_of_mem (n : ℕ) (succ : ℕ → List ℕ) (wf : GraphWf n succ)
    (s : ℕ) (hs : s < n) (v k : ℕ) (hv : v ∈ ball succ s k) :
    distN n succ s v ≤ k ∧ distN n succ s v ≤ n - 1 ∧
      v ∈ ball succ s (distN n succ s v) := by
  have hsat := ball_mem_saturate n succ wf s hs v k hv
  have h1 := distSearch_le succ s v n 0 (n - 1) (by omega) (by simpa using hsat)
  rcases le_or_lt k (n - 1) with hk | hk
  · have h2 := distSearch_le succ s v n 0 k (by omega) (by simpa using hv)
    exact ⟨by simpa [distN] using h2.1, by simpa [distN] using h1.1, h2.2⟩
  · refine ⟨?_, by simpa [distN] using h1.1, h1.2⟩
    have : distN n succ s v ≤ n - 1 := by simpa [distN] using h1.1
    omega

theorem dist_not_mem (n : ℕ) (succ : ℕ → List ℕ) (s v : ℕ) :
    ∀ j, j < distN n succ s v → v ∉ ball succ s j := by
  intro j hj
  exact distSearch_not_mem succ s v n 0 (by omega) j hj

theorem dist_triangle (n : ℕ) (succ : ℕ → List ℕ) (wf : GraphWf n succ)
    (s u v : ℕ) (hs : s < n) (hu : u < n) (husn : u ∈ ball succ s n)
    (hvun : v ∈ ball succ u n) :
    distN n succ s v ≤ distN n succ s u + distN n succ u v := by
  have h1 := dist_le_of_mem n succ wf s hs u n husn
  have h2 := dist_le_of_mem n succ wf u hu v n hvun
  have := ball_trans succ s u v _ _ h1.2.2 h2.2.2
  exact (dist_le_of_mem n succ wf s hs v _ this).1

/-- The forward eccentricity of s: the largest BFS distance over the
reachable set (the max_dist accumulated by the visit). -/
def eccSup (n : ℕ) (succ : ℕ → List ℕ) (s : ℕ) : ℕ :=
  (ball succ s n).sup (fun v => distN n succ s v)

theorem dist_le_eccSup (n : ℕ) (succ : ℕ → List ℕ) (s v : ℕ)
    (hv : v ∈ ball succ s n) : distN n succ s v ≤ eccSup n succ s :=
  Finset.le_sup hv

theorem eccSup_le (n : ℕ) (succ : ℕ → List ℕ) (s B : ℕ)
    (h : ∀ v ∈ ball succ s n, distN n succ s v ≤ B) : eccSup n succ s ≤ B :=
  Finset.sup_le h

theorem eccSup_le_n_sub_one (n : ℕ) (succ : ℕ → List ℕ) (wf : GraphWf n succ)
    (s : ℕ) (hs : s < n) : eccSup n succ s ≤ n - 1 := by
  refine eccSup_le n succ s (n - 1) ?_
  intro v hv
  exact (dist_le_of_mem n succ wf s hs v n hv).2.1

/-- The transpose adjacency: u is a predecessor of v when v is a
successor of u. -/
def predList (n : ℕ) (succ : ℕ → List ℕ) : ℕ → List ℕ :=
  fun v => (List.range n).filter (fun u => decide (v ∈ succ u))

theorem mem_predList (n : ℕ) (succ : ℕ → List ℕ) (u v : ℕ) :
    u ∈ predList n succ v ↔ u < n ∧ v ∈ succ u := by
  simp [predList]

theorem predList_wf (n : ℕ) (succ : ℕ → List ℕ) : GraphWf n (predList n succ) := by
  intro v _ u hu
  exact ((mem_predList n succ u v).mp hu).1

/-- Reachability transfers to any adjacency with the reversed arcs. -/
theorem ball_symm (n : ℕ) (adj1 adj2 : ℕ → List ℕ) (wf1 : GraphWf n adj1)
    (hsym : ∀ a b, a < n → b < n → b ∈ adj1 a → a ∈ adj2 b) :
    ∀ (k s u : ℕ), s < n → u ∈ ball adj1 s k → s ∈ ball adj2 u k := by
  intro k
  induction k with
  | zero =>
    intro s u hs hu
    have : u = s := by simpa [ball] using hu
    rw [this]
    exact self_mem_ball adj2 s 0
  | succ k ih =>
    intro s u hs hu
    rcases Finset.mem_union.mp hu with hu | hu
    · exact ball_mono adj2 u (by omega) (ih s u hs hu)
    · obtain ⟨w, hw, huw⟩ := Finset.mem_biUnion.mp hu
      simp only [List.mem_toFinset] at huw
      have hwn : w < n := by simpa using ball_subset_range n adj1 wf1 s hs k hw
      have hun : u < n := wf1 w hwn u huw
      have hadj2 : w ∈ adj2 u := hsym w u hwn hun huw
      have hsw : s ∈ ball adj2 w k := ih s w hs hw
      have hwu : w ∈ ball adj2 u 1 :=
        mem_ballStep_of_succ adj2 _ u w (self_mem_ball adj2 u 0) hadj2
      have := ball_trans adj2 u w s 1 k hwu hsw
      rwa [show 1 + k = k + 1 by omega] at this

theorem ball_symm_pred (n : ℕ) (succ : ℕ → List ℕ) (wf : GraphWf n succ)
    (k s u : ℕ) (hs : s < n) (hu : u ∈ ball succ s k) :
    s ∈ ball (predList n succ) u k := by
  refine ball_symm n succ (predList n succ) wf ?_ k s u hs hu
  intro a b ha _ hab
  exact (mem_predList n succ a b).mpr ⟨ha, hab⟩

theorem ball_symm_pred_rev (n : ℕ) (succ : ℕ → List ℕ) (k s u : ℕ)
    (hs : s < n) (hu : u ∈ ball (predList n succ) s k) :
    s ∈ ball succ u k := by
  refine ball_symm n (predList n succ) succ (predList_wf n succ) ?_ k s u hs hu
  intro a b _ _ hab
  exact ((mem_predList n succ b a).mp hab).2

theorem dist_symm_pred (n : ℕ) (succ : ℕ → List ℕ) (wf : GraphWf n succ)
    (s u : ℕ) (hs : s < n) (hu : u < n) (hreach : u ∈ ball succ s n) :
    distN n succ s u = distN n (predList n succ) u s := by
  have h1 := dist_le_of_mem n succ wf s hs u n hreach
  have h2 : s ∈ ball (predList n succ) u (distN n succ s u) :=
    ball_symm_pred n succ wf _ s u hs h1.2.2
  have h3 := dist_le_of_mem n (predList n succ) (predList_wf n succ) u hu s _ h2
  have h4 : u ∈ ball succ s (distN n (predList n succ) u s) :=
    ball_symm_pred_rev n succ _ u s hu h3.2.2
  have h5 := dist_le_of_mem n succ wf s hs u _ h4
  omega

/-- The restriction of a graph to a set of nodes: arcs with both
endpoints in the set (the visit filter of compute_dist_pivot keeps the
pivot component only). -/
def succR (C : Finset ℕ) (succ : ℕ → List ℕ) : ℕ → List ℕ :=
  fun u => if u ∈ C then (succ u).filter (fun v => decide (v ∈ C)) else []

theorem succR_wf (n : ℕ) (C : Finset ℕ) (succ : ℕ → List ℕ)
    (wf : GraphWf n succ) : GraphWf n (succR C succ) := by
  intro v hv u hu
  simp only [succR] at hu
  by_cases hc : v ∈ C
  · rw [if_pos hc] at hu
    exact wf v hv u (List.mem_of_mem_filter hu)
  · rw [if_neg hc] at hu
    simp at hu

theorem ballR_subset (C : Finset ℕ) (succ : ℕ → List ℕ) (s : ℕ) :
    ∀ k, ball (succR C succ) s k ⊆ ball succ s k := by
  intro k
  induction k with
  | zero => exact subset_refl _
  | succ k ih =>
    intro v hv
    rcases Finset.mem_union.mp hv with hv | hv
    · exact Finset.mem_union_left _ (ih hv)
    · obtain ⟨u, hu, hvu⟩ := Finset.mem_biUnion.mp hv
      simp only [List.mem_toFinset, succR] at hvu
      by_cases hc : u ∈ C
      · rw [if_pos hc] at hvu
        exact mem_ballStep_of_succ succ _ u v (ih hu) (List.mem_of_mem_filter hvu)
      · rw [if_neg hc] at hvu
        simp at hvu

theorem mem_succR (C : Finset ℕ) (succ : ℕ → List ℕ) (u v : ℕ) (hu : u ∈ C)
    (hv : v ∈ C) (hadj : v ∈ succ u) : v ∈ succR C succ u := by
  simp only [succR, if_pos hu]
  simp [hadj, hv]

/-- Confinement: a BFS from s restricted to a set closed under the
mutual-reachability class of s reaches every mutually reachable node at
the same radius, because every node of a round trip through v is itself
mutually reachable with s. -/
theorem ball_confine (n : ℕ) (succ : ℕ → List ℕ) (wf : GraphWf n succ)
    (s : ℕ) (hs : s < n) (C : Finset ℕ)
    (hCmem : ∀ w, w < n → w ∈ ball succ s n → s ∈ ball succ w n → w ∈ C) :
    ∀ (k v : ℕ), v ∈ ball succ s k → s ∈ ball succ v n →
      v ∈ ball (succR C succ) s k := by
  intro k
  induction k with
  | zero =>
    intro v hv _
    have : v = s := by simpa [ball] using hv
    rw [this]
    exact self_mem_ball _ s 0
  | succ k ih =>
    intro v hv hvs
    rcases Finset.mem_union.mp hv with hv | hv
    · exact Finset.mem_union_left _ (ih v hv hvs)
    · obtain ⟨w, hw, hvw⟩ := Finset.mem_biUnion.mp hv
      simp only [List.mem_toFinset] at hvw
      have hwn : w < n := by simpa using ball_subset_range n succ wf s hs k hw
      have hvn : v < n := wf w hwn v hvw
      have hwv : v ∈ ball succ w 1 :=
        mem_ballStep_of_succ succ _ w v (self_mem_ball succ w 0) hvw
      have hws : s ∈ ball succ w (1 + n) := ball_trans succ w v s 1 n hwv hvs
      have hws' : s ∈ ball succ w n :=
        ball_mem_n n succ wf w hwn s (1 + n) hws
      have hwC : w ∈ C :=
        hCmem w hwn (ball_mem_n n succ wf s hs w k hw) hws'
      have hvC : v ∈ C :=
        hCmem v hvn (ball_mem_n n succ wf s hs v (k + 1)
          (Finset.mem_union_right _ (Finset.mem_biUnion.mpr ⟨w, hw, by simpa using hvw⟩)))
          hvs
      have hwR : w ∈ ball (succR C succ) s k := ih w hw hws'
      exact mem_ballStep_of_succ _ _ w v hwR (mem_succR C succ w v hwC hvC hvw)

theorem dist_le_distR (n : ℕ) (C : Finset ℕ) (succ : ℕ → List ℕ)
    (wf : GraphWf n succ) (s v : ℕ) (hs : s < n)
    (hv : v ∈ ball (succR C succ) s n) :
    distN n succ s v ≤ distN n (succR C succ) s v := by
  have h1 := dist_le_of_mem n (succR C succ) (succR_wf n C succ wf) s hs v n hv
  have h2 : v ∈ ball succ s (distN n (succR C succ) s v) :=
    ballR_subset C succ s _ h1.2.2
  exact (dist_le_of_mem n succ wf s hs v _ h2).1

/-! ## ExactSumSweep state steps (src/algo/exact_sum_sweep/computer.rs)

The computer relies on the strongly connected components produced by
Tarjan and on the SCC-DAG bridges of SccGraph: a component id per node
(equal ids exactly for mutually reachable nodes, children ids smaller
than their parent id because Tarjan emits in reverse topological order),
one representative bridge arc per DAG edge, and a pivot per component
chosen inside the component (find_best_pivot returns such a member, see
find_best_pivot_characterisation). These collaborator guarantees are
collected in SccHyps.
-/

/-- The SCC decomposition and SCC-DAG data the ExactSumSweep steps
consume: component count, the component id of each node, per component
the bridge connections (target component, bridge start, bridge end), and
the pivot of each component. -/
structure SccData where
  numC : ℕ
  comp : ℕ → ℕ
  children : ℕ → List (ℕ × ℕ × ℕ)
  pivot : ℕ → ℕ

/-- The guarantees of the SCC collaborators: component ids classify
mutual reachability, Tarjan ids are reverse topological, bridges are
real arcs between the named components with every crossing pair
represented, pivots are members of their components. -/
structure SccHyps (n : ℕ) (succ : ℕ → List ℕ) (D : SccData) : Prop where
  comp_lt : ∀ v, v < n → D.comp v < D.numC
  comp_iff : ∀ u v, u < n → v < n →
    (D.comp u = D.comp v ↔ (v ∈ ball succ u n ∧ u ∈ ball succ v n))
  pivot_lt : ∀ c, c < D.numC → D.pivot c < n
  pivot_comp : ∀ c, c < D.numC → D.comp (D.pivot c) = c
  children_valid : ∀ c, c < D.numC → ∀ conn ∈ D.children c,
    conn.2.1 < n ∧ conn.2.2 < n ∧ D.comp conn.2.1 = c ∧
      D.comp conn.2.2 = conn.1 ∧ conn.2.2 ∈ succ conn.2.1 ∧ conn.1 < c
  children_complete : ∀ u x, u < n → x ∈ succ u → D.comp x ≠ D.comp u →
    ∃ conn ∈ D.children (D.comp u), conn.1 = D.comp x

/-- The member set of component c. -/
def compClass (n : ℕ) (comp : ℕ → ℕ) (c : ℕ) : Finset ℕ :=
  (Finset.range n).filter (fun v => comp v = c)

theorem mem_compClass (n : ℕ) (comp : ℕ → ℕ) (c v : ℕ) :
    v ∈ compClass n comp c ↔ v < n ∧ comp v = c := by
  simp [compClass]

/-- dist_pivot of the forward restricted visits: the distance from the
pivot of the node's component to the node inside the component. -/
def essDistPivotF (n : ℕ) (succ : ℕ → List ℕ) (D : SccData) (v : ℕ) : ℕ :=
  distN n (succR (compClass n D.comp (D.comp v)) succ) (D.pivot (D.comp v)) v

/-- dist_pivot of the backward restricted visits. -/
def essDistPivotB (n : ℕ) (succ : ℕ → List ℕ) (D : SccData) (v : ℕ) : ℕ :=
  distN n (succR (compClass n D.comp (D.comp v)) (predList n succ))
    (D.pivot (D.comp v)) v

/-- The initial ecc_pivot of a component: the eccentricity of its pivot
inside the component (the largest distance stored by the restricted
visit). -/
def essEccPivotF0 (n : ℕ) (succ : ℕ → List ℕ) (D : SccData) (c : ℕ) : ℕ :=
  eccSup n (succR (compClass n D.comp c) succ) (D.pivot c)

/-- The initial backward ecc_pivot of a component. -/
def essEccPivotB0 (n : ℕ) (succ : ℕ → List ℕ) (D : SccData) (c : ℕ) : ℕ :=
  eccSup n (succR (compClass n D.comp c) (predList n succ)) (D.pivot c)

/-- Every walk from a member of C to a node outside C leaves C through
some arc whose tail is in C and whose head is outside. -/
theorem first_exit (n : ℕ) (adj : ℕ → List ℕ) (wf : GraphWf n adj) (p : ℕ)
    (hp : p < n) (C : Finset ℕ) (hpC : p ∈ C) :
    ∀ (k w : ℕ), w ∈ ball adj p k → w ∉ C →
      ∃ u x, u < n ∧ x < n ∧ u ∈ C ∧ x ∉ C ∧ x ∈ adj u ∧
        u ∈ ball adj p n ∧ w ∈ ball adj x n := by
  intro k
  induction k with
  | zero =>
    intro w hw hwC
    have : w = p := by simpa [ball] using hw
    rw [this] at hwC
    exact absurd hpC hwC
  | succ k ih =>
    intro w hw hwC
    rcases Finset.mem_union.mp hw with hw | hw
    · exact ih w hw hwC
    · obtain ⟨u, hu, hwu⟩ := Finset.mem_biUnion.mp hw
      simp only [List.mem_toFinset] at hwu
      have hun : u < n := by simpa using ball_subset_range n adj wf p hp k hu
      have hwn : w < n := wf u hun w hwu
      by_cases huC : u ∈ C
      · exact ⟨u, w, hun, hwn, huC, hwC, hwu,
          ball_mem_n n adj wf p hp u k hu, self_mem_ball adj w n⟩
      · obtain ⟨u₀, x₀, h1, h2, h3, h4, h5, h6, h7⟩ := ih u hu huC
        refine ⟨u₀, x₀, h1, h2, h3, h4, h5, h6, ?_⟩
        have hwx : w ∈ ball adj u 1 :=
          mem_ballStep_of_succ adj _ u w (self_mem_ball adj u 0) hwu
        have := ball_trans adj x₀ u w n 1 h7 hwx
        exact ball_mem_n n adj wf x₀ h2 w (n + 1) this

/-- Every node mutually reachable with p lies in the component class of
p. -/
theorem class_contains_mutual (n : ℕ) (succ : ℕ → List ℕ) (D : SccData)
    (H : SccHyps n succ D) (p : ℕ) (hp : p < n) :
    ∀ w, w < n → w ∈ ball succ p n → p ∈ ball succ w n →
      w ∈ compClass n D.comp (D.comp p) := by
  intro w hw h1 h2
  rw [mem_compClass]
  exact ⟨hw, (H.comp_iff w p hw hp).mpr ⟨h2, h1⟩⟩

/-- The transpose version: mutual reachability in the transpose is
mutual reachability in the graph, so the class is again closed. -/
theorem class_contains_mutual_pred (n : ℕ) (succ : ℕ → List ℕ)
    (D : SccData) (H : SccHyps n succ D) (p : ℕ) (hp : p < n) :
    ∀ w, w < n → w ∈ ball (predList n succ) p n →
      p ∈ ball (predList n succ) w n →
      w ∈ compClass n D.comp (D.comp p) := by
  intro w hw h1 h2
  rw [mem_compClass]
  exact ⟨hw, (H.comp_iff w p hw hp).mpr
    ⟨ball_symm_pred_rev n succ n p w hp h1,
     ball_symm_pred_rev n succ n w p hw h2⟩⟩

/-- The unrestricted forward distance from a node's component pivot is
bounded by the restricted-visit dist_pivot, because the shortest path
stays inside the component. -/
theorem dist_le_distPivotF (n : ℕ) (succ : ℕ → List ℕ)
    (wf : GraphWf n succ) (D : SccData) (H : SccHyps n succ D) (v : ℕ)
    (hv : v < n) (hc : D.comp v < D.numC) :
    distN n succ (D.pivot (D.comp v)) v ≤ essDistPivotF n succ D v := by
  have hp : D.pivot (D.comp v) < n := H.pivot_lt _ hc
  have hpc : D.comp (D.pivot (D.comp v)) = D.comp v := H.pivot_comp _ hc
  have hmut := (H.comp_iff (D.pivot (D.comp v)) v hp hv).mp hpc
  have hconf := ball_confine n succ wf (D.pivot (D.comp v)) hp
    (compClass n D.comp (D.comp v))
    (fun w hw h1 h2 => by
      have := class_contains_mutual n succ D H _ hp w hw h1 h2
      rwa [hpc] at this) n v hmut.1 hmut.2
  simp only [essDistPivotF]
  exact dist_le_distR n _ succ wf _ v hp hconf

/-- The transpose distance from a node's component pivot is bounded by
the backward restricted-visit dist_pivot. -/
theorem dist_le_distPivotB (n : ℕ) (succ : ℕ → List ℕ)
    (wf : GraphWf n succ) (D : SccData) (H : SccHyps n succ D) (v : ℕ)
    (hv : v < n) (hc : D.comp v < D.numC) :
    distN n (predList n succ) (D.pivot (D.comp v)) v ≤
      essDistPivotB n succ D v := by
  have hp : D.pivot (D.comp v) < n := H.pivot_lt _ hc
  have hpc : D.comp (D.pivot (D.comp v)) = D.comp v := H.pivot_comp _ hc
  have hmut := (H.comp_iff (D.pivot (D.comp v)) v hp hv).mp hpc
  have h1 : v ∈ ball (predList n succ) (D.pivot (D.comp v)) n :=
    ball_symm_pred n succ wf n v _ hv hmut.2
  have h2 : D.pivot (D.comp v) ∈ ball (predList n succ) v n :=
    ball_symm_pred n succ wf n _ v hp hmut.1
  have hconf := ball_confine n (predList n succ) (predList_wf n succ)
    (D.pivot (D.comp v)) hp (compClass n D.comp (D.comp v))
    (fun w hw ha hb => by
      have := class_contains_mutual_pred n succ D H _ hp w hw ha hb
      rwa [hpc] at this) n v h1 h2
  simp only [essDistPivotB]
  exact dist_le_distR n _ (predList n succ) (predList_wf n succ) _ v hp hconf

/-- Inside its own component, a node reachable from the pivot is within
the initial forward ecc_pivot of the component. -/
theorem dist_le_eccPivotF0 (n : ℕ) (succ : ℕ → List ℕ)
    (wf : GraphWf n succ) (D : SccData) (H : SccHyps n succ D) (c : ℕ)
    (hc : c < D.numC) (w : ℕ) (hw : w < n) (hcw : D.comp w = c)
    (hreach : w ∈ ball succ (D.pivot c) n) :
    distN n succ (D.pivot c) w ≤ essEccPivotF0 n succ D c := by
  have hp : D.pivot c < n := H.pivot_lt _ hc
  have hpc : D.comp (D.pivot c) = c := H.pivot_comp _ hc
  have hmut := (H.comp_iff (D.pivot c) w hp hw).mp (by rw [hpc, hcw])
  have hconf := ball_confine n succ wf (D.pivot c) hp
    (compClass n D.comp c)
    (fun z hz h1 h2 => by
      have := class_contains_mutual n succ D H _ hp z hz h1 h2
      rwa [hpc] at this) n w hmut.1 hmut.2
  have hle := dist_le_distR n (compClass n D.comp c) succ wf _ w hp hconf
  have := dist_le_eccSup n (succR (compClass n D.comp c) succ)
    (D.pivot c) w (by
      have := ball_confine n succ wf (D.pivot c) hp (compClass n D.comp c)
        (fun z hz h1 h2 => by
          have := class_contains_mutual n succ D H _ hp z hz h1 h2
          rwa [hpc] at this) n w hmut.1 hmut.2
      exact this)
  simp only [essEccPivotF0]
  omega

/-- The transpose version for the initial backward ecc_pivot. -/
theorem dist_le_eccPivotB0 (n : ℕ) (succ : ℕ → List ℕ)
    (wf : GraphWf n succ) (D : SccData) (H : SccHyps n succ D) (c : ℕ)
    (hc : c < D.numC) (w : ℕ) (hw : w < n) (hcw : D.comp w = c)
    (hreach : w ∈ ball (predList n succ) (D.pivot c) n) :
    distN n (predList n succ) (D.pivot c) w ≤ essEccPivotB0 n succ D c := by
  have hp : D.pivot c < n := H.pivot_lt _ hc
  have hpc : D.comp (D.pivot c) = c := H.pivot_comp _ hc
  have hmut := (H.comp_iff (D.pivot c) w hp hw).mp (by rw [hpc, hcw])
  have h2 : D.pivot c ∈ ball (predList n succ) w n :=
    ball_symm_pred n succ wf n _ w hp hmut.1
  have hconf := ball_confine n (predList n succ) (predList_wf n succ)
    (D.pivot c) hp (compClass n D.comp c)
    (fun z hz ha hb => by
      have := class_contains_mutual_pred n succ D H _ hp z hz ha hb
      rwa [hpc] at this) n w hreach h2
  have hle := dist_le_distR n (compClass n D.comp c) (predList n succ)
    (predList_wf n succ) _ w hp hconf
  have := dist_le_eccSup n (succR (compClass n D.comp c) (predList n succ))
    (D.pivot c) w hconf
  simp only [essEccPivotB0]
  omega

/-- The key forward bound behind all_cc_upper_bound: any node reachable
from the pivot of component c is either inside c, within the initial
ecc_pivot, or reached through a bridge of children(c), within
dist_pivot_f(start) + 1 + dist_pivot_b(end) + ecc(pivot of the target
component). -/
theorem allcc_bound_fwd (n : ℕ) (succ : ℕ → List ℕ) (wf : GraphWf n succ)
    (D : SccData) (H : SccHyps n succ D) (c : ℕ) (hc : c < D.numC) (w : ℕ)
    (hw : w ∈ ball succ (D.pivot c) n) :
    distN n succ (D.pivot c) w ≤ essEccPivotF0 n succ D c ∨
    ∃ conn ∈ D.children c,
      distN n succ (D.pivot c) w ≤
        essDistPivotF n succ D conn.2.1 + 1 + essDistPivotB n succ D conn.2.2 +
          eccSup n succ (D.pivot conn.1) := by
  have hp : D.pivot c < n := H.pivot_lt _ hc
  have hpc : D.comp (D.pivot c) = c := H.pivot_comp _ hc
  have hwn : w < n := by simpa using ball_subset_range n succ wf _ hp n hw
  by_cases hcw : D.comp w = c
  · exact Or.inl (dist_le_eccPivotF0 n succ wf D H c hc w hwn hcw hw)
  right
  have hpC : D.pivot c ∈ compClass n D.comp c :=
    (mem_compClass n D.comp c _).mpr ⟨hp, hpc⟩
  have hwC : w ∉ compClass n D.comp c := by
    rw [mem_compClass]
    exact fun h => hcw h.2
  obtain ⟨u, x, hun, hxn, huC, hxC, hadj, hupn, hwxn⟩ :=
    first_exit n succ wf (D.pivot c) hp (compClass n D.comp c) hpC n w hw hwC
  have hcu : D.comp u = c := ((mem_compClass n D.comp c u).mp huC).2
  have hcx : D.comp x ≠ c := fun h =>
    hxC ((mem_compClass n D.comp c x).mpr ⟨hxn, h⟩)
  obtain ⟨conn, hconn, htgt⟩ := H.children_complete u x hun hadj
    (by rw [hcu]; exact hcx)
  rw [hcu] at hconn
  obtain ⟨hst, hen, hcst, hcen, harc, hlt⟩ := H.children_valid c hc conn hconn
  have ht : conn.1 < D.numC := lt_trans hlt hc
  have hpt : D.pivot conn.1 < n := H.pivot_lt _ ht
  have hptc : D.comp (D.pivot conn.1) = conn.1 := H.pivot_comp _ ht
  have hmst := (H.comp_iff (D.pivot c) conn.2.1 hp hst).mp (by rw [hpc, hcst])
  have hen1 : conn.2.2 ∈ ball succ conn.2.1 1 :=
    mem_ballStep_of_succ succ _ _ _ (self_mem_ball _ _ 0) harc
  have hmen := (H.comp_iff conn.2.2 (D.pivot conn.1) hen hpt).mp
    (by rw [hcen, hptc])
  have hmx := (H.comp_iff (D.pivot conn.1) x hpt hxn).mp
    (by rw [hptc]; exact htgt)
  have hw_from_t : w ∈ ball succ (D.pivot conn.1) n :=
    ball_mem_n n succ wf _ hpt w _ (ball_trans succ _ x w n n hmx.1 hwxn)
  have hw_from_en : w ∈ ball succ conn.2.2 n :=
    ball_mem_n n succ wf _ hen w _
      (ball_trans succ _ (D.pivot conn.1) w n n hmen.1 hw_from_t)
  have hen_from_st : conn.2.2 ∈ ball succ conn.2.1 n :=
    ball_mem_n n succ wf _ hst _ 1 hen1
  have hw_from_st : w ∈ ball succ conn.2.1 n :=
    ball_mem_n n succ wf _ hst w _
      (ball_trans succ _ conn.2.2 w n n hen_from_st hw_from_en)
  have htri1 := dist_triangle n succ wf (D.pivot c) conn.2.1 w hp hst
    hmst.1 hw_from_st
  have htri2 := dist_triangle n succ wf conn.2.1 conn.2.2 w hst hen
    hen_from_st hw_from_en
  have htri3 := dist_triangle n succ wf conn.2.2 (D.pivot conn.1) w hen hpt
    hmen.1 hw_from_t
  have hd1 : distN n succ conn.2.1 conn.2.2 ≤ 1 :=
    (dist_le_of_mem n succ wf conn.2.1 hst conn.2.2 1 hen1).1
  have hdf : distN n succ (D.pivot c) conn.2.1 ≤ essDistPivotF n succ D conn.2.1 := by
    have := dist_le_distPivotF n succ wf D H conn.2.1 hst (by rw [hcst]; exact hc)
    rwa [hcst] at this
  have hdb : distN n (predList n succ) (D.pivot conn.1) conn.2.2 ≤
      essDistPivotB n succ D conn.2.2 := by
    have := dist_le_distPivotB n succ wf D H conn.2.2 hen (by rw [hcen]; exact ht)
    rwa [hcen] at this
  have hsym : distN n succ conn.2.2 (D.pivot conn.1) =
      distN n (predList n succ) (D.pivot conn.1) conn.2.2 :=
    dist_symm_pred n succ wf conn.2.2 (D.pivot conn.1) hen hpt hmen.1
  have hecc : distN n succ (D.pivot conn.1) w ≤ eccSup n succ (D.pivot conn.1) :=
    dist_le_eccSup n succ _ w hw_from_t
  exact ⟨conn, hconn, by omega⟩

/-- The backward bound behind all_cc_upper_bound: a node reaching the
pivot of component c (reachable in the transpose) is inside c within the
initial backward ecc_pivot, or crosses a bridge of some parent component
c2 into c, within dist_pivot_f(start) + 1 + dist_pivot_b(end) +
backward ecc(pivot of c2); parents carry a larger Tarjan id. -/
theorem allcc_bound_bwd (n : ℕ) (succ : ℕ → List ℕ) (wf : GraphWf n succ)
    (D : SccData) (H : SccHyps n succ D) (c : ℕ) (hc : c < D.numC) (w : ℕ)
    (hw : w ∈ ball (predList n succ) (D.pivot c) n) :
    distN n (predList n succ) (D.pivot c) w ≤ essEccPivotB0 n succ D c ∨
    ∃ c2, c2 < D.numC ∧ c < c2 ∧ ∃ conn ∈ D.children c2, conn.1 = c ∧
      distN n (predList n succ) (D.pivot c) w ≤
        essDistPivotF n succ D conn.2.1 + 1 + essDistPivotB n succ D conn.2.2 +
          eccSup n (predList n succ) (D.pivot c2) := by
  have wf' : GraphWf n (predList n succ) := predList_wf n succ
  have hp : D.pivot c < n := H.pivot_lt _ hc
  have hpc : D.comp (D.pivot c) = c := H.pivot_comp _ hc
  have hwn : w < n := by
    simpa using ball_subset_range n (predList n succ) wf' _ hp n hw
  by_cases hcw : D.comp w = c
  · exact Or.inl (dist_le_eccPivotB0 n succ wf D H c hc w hwn hcw hw)
  right
  have hpC : D.pivot c ∈ compClass n D.comp c :=
    (mem_compClass n D.comp c _).mpr ⟨hp, hpc⟩
  have hwC : w ∉ compClass n D.comp c := by
    rw [mem_compClass]
    exact fun h => hcw h.2
  obtain ⟨u, x, hun, hxn, huC, hxC, hadj, hupn, hwxn⟩ :=
    first_exit n (predList n succ) wf' (D.pivot c) hp
      (compClass n D.comp c) hpC n w hw hwC
  have hcu : D.comp u = c := ((mem_compClass n D.comp c u).mp huC).2
  have hcx : D.comp x ≠ c := fun h =>
    hxC ((mem_compClass n D.comp c x).mpr ⟨hxn, h⟩)
  have harc : u ∈ succ x := ((mem_predList n succ x u).mp hadj).2
  obtain ⟨conn, hconn, htgt⟩ := H.children_complete x u hxn harc
    (by rw [hcu]; exact fun h => hcx h.symm)
  obtain ⟨hst, hen, hcst, hcen, harc2, hlt⟩ :=
    H.children_valid (D.comp x) (H.comp_lt x hxn) conn hconn
  have htc : conn.1 = c := by rw [htgt, hcu]
  have hclt : c < D.comp x := by rw [← htc]; exact hlt
  have hc2 : D.comp x < D.numC := H.comp_lt x hxn
  have hpt : D.pivot (D.comp x) < n := H.pivot_lt _ hc2
  have hptc : D.comp (D.pivot (D.comp x)) = D.comp x := H.pivot_comp _ hc2
  have hmen := (H.comp_iff (D.pivot c) conn.2.2 hp hen).mp
    (by rw [hpc, hcen]; exact htc.symm)
  have hmst := (H.comp_iff (D.pivot (D.comp x)) conn.2.1 hpt hst).mp
    (by rw [hptc, hcst])
  have hmx := (H.comp_iff (D.pivot (D.comp x)) x hpt hxn).mp (by rw [hptc])
  have hen_p : conn.2.2 ∈ ball (predList n succ) (D.pivot c) n :=
    ball_symm_pred n succ wf n conn.2.2 _ hen hmen.2
  have hst1 : conn.2.1 ∈ ball (predList n succ) conn.2.2 1 :=
    mem_ballStep_of_succ _ _ _ _ (self_mem_ball _ _ 0)
      ((mem_predList n succ conn.2.1 conn.2.2).mpr ⟨hst, harc2⟩)
  have hst_from_en : conn.2.1 ∈ ball (predList n succ) conn.2.2 n :=
    ball_mem_n n _ wf' _ hen _ 1 hst1
  have hpt_from_st : D.pivot (D.comp x) ∈ ball (predList n succ) conn.2.1 n :=
    ball_symm_pred n succ wf n _ conn.2.1 hpt hmst.1
  have hx_from_pt : x ∈ ball (predList n succ) (D.pivot (D.comp x)) n :=
    ball_symm_pred n succ wf n x _ hxn hmx.2
  have hw_from_pt : w ∈ ball (predList n succ) (D.pivot (D.comp x)) n :=
    ball_mem_n n _ wf' _ hpt w _
      (ball_trans (predList n succ) _ x w n n hx_from_pt hwxn)
  have hw_from_st : w ∈ ball (predList n succ) conn.2.1 n :=
    ball_mem_n n _ wf' _ hst w _
      (ball_trans (predList n succ) _ (D.pivot (D.comp x)) w n n
        hpt_from_st hw_from_pt)
  have hw_from_en : w ∈ ball (predList n succ) conn.2.2 n :=
    ball_mem_n n _ wf' _ hen w _
      (ball_trans (predList n succ) _ conn.2.1 w n n hst_from_en hw_from_st)
  have htri1 := dist_triangle n (predList n succ) wf' (D.pivot c) conn.2.2 w
    hp hen hen_p hw_from_en
  have htri2 := dist_triangle n (predList n succ) wf' conn.2.2 conn.2.1 w
    hen hst hst_from_en hw_from_st
  have htri3 := dist_triangle n (predList n succ) wf' conn.2.1
    (D.pivot (D.comp x)) w hst hpt hpt_from_st hw_from_pt
  have hd1 : distN n (predList n succ) conn.2.2 conn.2.1 ≤ 1 :=
    (dist_le_of_mem n _ wf' conn.2.2 hen conn.2.1 1 hst1).1
  have hdb : distN n (predList n succ) (D.pivot c) conn.2.2 ≤
      essDistPivotB n succ D conn.2.2 := by
    have := dist_le_distPivotB n succ wf D H conn.2.2 hen
      (by rw [hcen, htc]; exact hc)
    rwa [hcen, htc] at this
  have hsym : distN n succ (D.pivot (D.comp x)) conn.2.1 =
      distN n (predList n succ) conn.2.1 (D.pivot (D.comp x)) :=
    dist_symm_pred n succ wf (D.pivot (D.comp x)) conn.2.1 hpt hst hmst.1
  have hdf : distN n succ (D.pivot (D.comp x)) conn.2.1 ≤
      essDistPivotF n succ D conn.2.1 := by
    have := dist_le_distPivotF n succ wf D H conn.2.1 hst
      (by rw [hcst]; exact hc2)
    rwa [hcst] at this
  have hecc : distN n (predList n succ) (D.pivot (D.comp x)) w ≤
      eccSup n (predList n succ) (D.pivot (D.comp x)) :=
    dist_le_eccSup n (predList n succ) _ w hw_from_pt
  exact ⟨D.comp x, hc2, hclt, conn, hconn, htc, by omega⟩

/-- The initial bounds state of DirExactSumSweepComputer::new: low
bounds 0, high bounds num_nodes, totals 0. -/
def essSetup (n : ℕ) : EssBounds :=
  { forwardLow := fun _ => 0
    forwardHigh := fun _ => n
    backwardLow := fun _ => 0
    backwardHigh := fun _ => n
    forwardTot := fun _ => 0
    backwardTot := fun _ => 0 }

/-- forward_step_sum_sweep: a forward BFS from start updates, for each
visited node, backward_tot by the distance and backward_low to the
distance when the backward bracket is open and the distance is larger;
then both forward bounds of start are set to the visit eccentricity. -/
def essForwardStep (n : ℕ) (succ : ℕ → List ℕ) (st : EssBounds) (s : ℕ) :
    EssBounds :=
  { forwardLow := Function.update st.forwardLow s (eccSup n succ s)
    forwardHigh := Function.update st.forwardHigh s (eccSup n succ s)
    backwardLow := fun v =>
      if v ∈ ball succ s n ∧ st.backwardLow v ≠ st.backwardHigh v ∧
          st.backwardLow v < distN n succ s v
      then distN n succ s v else st.backwardLow v
    backwardHigh := st.backwardHigh
    forwardTot := st.forwardTot
    backwardTot := fun v =>
      if v ∈ ball succ s n then st.backwardTot v + distN n succ s v
      else st.backwardTot v }

/-- backwards_step_sum_sweep: the mirror on the transpose. -/
def essBackwardStep (n : ℕ) (succ : ℕ → List ℕ) (st : EssBounds) (s : ℕ) :
    EssBounds :=
  { forwardLow := fun v =>
      if v ∈ ball (predList n succ) s n ∧ st.forwardLow v ≠ st.forwardHigh v ∧
          st.forwardLow v < distN n (predList n succ) s v
      then distN n (predList n succ) s v else st.forwardLow v
    forwardHigh := st.forwardHigh
    backwardLow := Function.update st.backwardLow s (eccSup n (predList n succ) s)
    backwardHigh := Function.update st.backwardHigh s (eccSup n (predList n succ) s)
    forwardTot := fun v =>
      if v ∈ ball (predList n succ) s n then
        st.forwardTot v + distN n (predList n succ) s v
      else st.forwardTot v
    backwardTot := st.backwardTot }

/-- The inner forward loop of all_cc_upper_bound over the bridges of one
component: accumulate the max of the crossing terms, clamping to the cap
(forward_high of the pivot) and breaking as soon as it is reached. -/
def allccInnerF (cap : ℕ) (term : ℕ × ℕ × ℕ → ℕ) :
    ℕ → List (ℕ × ℕ × ℕ) → ℕ
  | cur, [] => cur
  | cur, conn :: rest =>
      let cur2 := max cur (term conn)
      if cap ≤ cur2 then cap else allccInnerF cap term cur2 rest

/-- The forward ecc_pivot table loop: components in ascending id order
(reverse topological), each entry maxed over its bridge terms reading
the already-final entries of smaller ids. -/
def allccFwdGo (step : ℕ → (ℕ → ℕ) → ℕ) : ℕ → (ℕ → ℕ) → (ℕ → ℕ)
  | 0, tab => tab
  | k + 1, tab => Function.update (allccFwdGo step k tab) k
      (step k (allccFwdGo step k tab))

/-- The full forward ecc_pivot table of all_cc_upper_bound. -/
def allccFwdTable (n : ℕ) (succ : ℕ → List ℕ) (D : SccData)
    (fh : ℕ → ℕ) : ℕ → ℕ :=
  allccFwdGo
    (fun c tab => allccInnerF (fh (D.pivot c))
      (fun conn => essDistPivotF n succ D conn.2.1 + 1 +
        essDistPivotB n succ D conn.2.2 + tab conn.1)
      (tab c) (D.children c))
    D.numC (fun c => essEccPivotF0 n succ D c)

/-- The inner backward loop of all_cc_upper_bound over the bridges of
one component c: each bridge raises the entry of its target component by
the crossing term through c, clamping to backward_high of the target
pivot when reached (without break). -/
def allccInnerB (term : ℕ × ℕ × ℕ → (ℕ → ℕ) → ℕ) (capOf : ℕ → ℕ) :
    (ℕ → ℕ) → List (ℕ × ℕ × ℕ) → (ℕ → ℕ)
  | tab, [] => tab
  | tab, conn :: rest =>
      let v1 := max (tab conn.1) (term conn tab)
      let v2 := if capOf conn.1 ≤ v1 then capOf conn.1 else v1
      allccInnerB term capOf (Function.update tab conn.1 v2) rest

/-- The backward ecc_pivot table loop: components in descending id order
(topological), pushing terms into the entries of their targets. -/
def allccBwdGo (step : ℕ → (ℕ → ℕ) → (ℕ → ℕ)) : ℕ → (ℕ → ℕ) → (ℕ → ℕ)
  | 0, tab => tab
  | k + 1, tab => allccBwdGo step k (step k tab)

/-- The full backward ecc_pivot table of all_cc_upper_bound. -/
def allccBwdTable (n : ℕ) (succ : ℕ → List ℕ) (D : SccData)
    (bh : ℕ → ℕ) : ℕ → ℕ :=
  allccBwdGo
    (fun c tab => allccInnerB
      (fun conn t => essDistPivotF n succ D conn.2.1 + 1 +
        essDistPivotB n succ D conn.2.2 + t c)
      (fun tc => bh (D.pivot tc)) tab (D.children c))
    D.numC (fun c => essEccPivotB0 n succ D c)

/-- all_cc_upper_bound: after both table loops, every node's high bounds
are lowered to dist_pivot of the opposite direction plus the ecc_pivot
of its component. -/
def essAllCCStep (n : ℕ) (succ : ℕ → List ℕ) (D : SccData)
    (st : EssBounds) : EssBounds :=
  { forwardLow := st.forwardLow
    forwardHigh := fun v => min (st.forwardHigh v)
      (essDistPivotB n succ D v + allccFwdTable n succ D st.forwardHigh (D.comp v))
    backwardLow := st.backwardLow
    backwardHigh := fun v => min (st.backwardHigh v)
      (essDistPivotF n succ D v + allccBwdTable n succ D st.backwardHigh (D.comp v))
    forwardTot := st.forwardTot
    backwardTot := st.backwardTot }

/-- The states the computer can be in between ExactSumSweep steps: after
setup, then after any sequence of forward BFS, backward BFS and
AllCCUpperBound steps. -/
inductive EssReachable (n : ℕ) (succ : ℕ → List ℕ) (D : SccData) :
    EssBounds → Prop
  | setup : EssReachable n succ D (essSetup n)
  | fwd (st : EssBounds) (s : ℕ) (hs : s < n)
      (h : EssReachable n succ D st) :
      EssReachable n succ D (essForwardStep n succ st s)
  | bwd (st : EssBounds) (s : ℕ) (hs : s < n)
      (h : EssReachable n succ D st) :
      EssReachable n succ D (essBackwardStep n succ st s)
  | allcc (st : EssBounds) (h : EssReachable n succ D st) :
      EssReachable n succ D (essAllCCStep n succ D st)

/-- The semantic invariant: the bounds bracket the true forward and
backward eccentricities of every node. -/
def EssValid (n : ℕ) (succ : ℕ → List ℕ) (st : EssBounds) : Prop :=
  ∀ v, v < n →
    st.forwardLow v ≤ eccSup n succ v ∧
    eccSup n succ v ≤ st.forwardHigh v ∧
    st.backwardLow v ≤ eccSup n (predList n succ) v ∧
    eccSup n (predList n succ) v ≤ st.backwardHigh v

theorem essValid_setup (n : ℕ) (succ : ℕ → List ℕ) (wf : GraphWf n succ) :
    EssValid n succ (essSetup n) := by
  intro v hv
  refine ⟨Nat.zero_le _, ?_, Nat.zero_le _, ?_⟩
  · have := eccSup_le_n_sub_one n succ wf v hv
    simp only [essSetup]
    omega
  · have := eccSup_le_n_sub_one n (predList n succ) (predList_wf n succ) v hv
    simp only [essSetup]
    omega

theorem essValid_fwd (n : ℕ) (succ : ℕ → List ℕ) (wf : GraphWf n succ)
    (st : EssBounds) (hval : EssValid n succ st) (s : ℕ) (hs : s < n) :
    EssValid n succ (essForwardStep n succ st s) := by
  intro v hv
  obtain ⟨h1, h2, h3, h4⟩ := hval v hv
  simp only [essForwardStep]
  refine ⟨?_, ?_, ?_, h4⟩
  · rw [Function.update_apply]
    split_ifs with hvs
    · rw [hvs]
    · exact h1
  · rw [Function.update_apply]
    split_ifs with hvs
    · rw [hvs]
    · exact h2
  · split_ifs with hcond
    · have hsym := dist_symm_pred n succ wf s v hs hv hcond.1
      have hmem : s ∈ ball (predList n succ) v n :=
        ball_symm_pred n succ wf n s v hs hcond.1
      have := dist_le_eccSup n (predList n succ) v s hmem
      omega
    · exact h3

theorem essValid_bwd (n : ℕ) (succ : ℕ → List ℕ) (wf : GraphWf n succ)
    (st : EssBounds) (hval : EssValid n succ st) (s : ℕ) (hs : s < n) :
    EssValid n succ (essBackwardStep n succ st s) := by
  intro v hv
  obtain ⟨h1, h2, h3, h4⟩ := hval v hv
  simp only [essBackwardStep]
  refine ⟨?_, h2, ?_, ?_⟩
  · split_ifs with hcond
    · have hmem : s ∈ ball succ v n :=
        ball_symm_pred_rev n succ n s v hs hcond.1
      have hsym := dist_symm_pred n succ wf v s hv hs hmem
      have := dist_le_eccSup n succ v s hmem
      omega
    · exact h1
  · rw [Function.update_apply]
    split_ifs with hvs
    · rw [hvs]
    · exact h3
  · rw [Function.update_apply]
    split_ifs with hvs
    · rw [hvs]
    · exact h4

/-- The forward inner loop either hits the cap or dominates its start
value and every bridge term. -/
theorem allccInnerF_spec (cap : ℕ) (term : ℕ × ℕ × ℕ → ℕ) :
    ∀ (l : List (ℕ × ℕ × ℕ)) (cur : ℕ),
      allccInnerF cap term cur l = cap ∨
      (cur ≤ allccInnerF cap term cur l ∧
        ∀ conn ∈ l, term conn ≤ allccInnerF cap term cur l) := by
  intro l
  induction l with
  | nil =>
    intro cur
    exact Or.inr ⟨le_refl _, fun conn h => absurd h (List.not_mem_nil conn)⟩
  | cons conn rest ih =>
    intro cur
    simp only [allccInnerF]
    split_ifs with hcap
    · exact Or.inl rfl
    · rcases ih (max cur (term conn)) with h | ⟨hle, hall⟩
      · exact Or.inl h
      · refine Or.inr ⟨le_trans (le_max_left _ _) hle, ?_⟩
        intro c hc
        rcases List.mem_cons.mp hc with rfl | hc
        · exact le_trans (le_max_right _ _) hle
        · exact hall c hc

/-- The ascending table loop leaves entries at or above the cursor
untouched. -/
theorem allccFwdGo_untouched (step : ℕ → (ℕ → ℕ) → ℕ) :
    ∀ (k : ℕ) (tab : ℕ → ℕ) (c : ℕ), k ≤ c → allccFwdGo step k tab c = tab c := by
  intro k
  induction k with
  | zero => intro tab c _; rfl
  | succ k ih =>
    intro tab c hc
    simp only [allccFwdGo]
    rw [Function.update_noteq (by omega : c ≠ k)]
    exact ih tab c (by omega)

/-- Induction principle for the ascending table loop: if each step
establishes the target bound at its own index, given the bound at all
smaller indices and the untouched initial entry, then the finished table
satisfies the bound below the cursor. -/
theorem allccFwdGo_valid_abstract (step : ℕ → (ℕ → ℕ) → ℕ) (init : ℕ → ℕ)
    (E : ℕ → ℕ) (N : ℕ)
    (hstep : ∀ k, k < N → ∀ tab : ℕ → ℕ, (∀ c, c < k → E c ≤ tab c) →
      tab k = init k → E k ≤ step k tab) :
    ∀ k, k ≤ N → ∀ c, c < k → E c ≤ allccFwdGo step k init c := by
  intro k
  induction k with
  | zero => intro _ c hc; exact absurd hc (Nat.not_lt_zero c)
  | succ k ih =>
    intro hk c hc
    simp only [allccFwdGo]
    rcases Nat.lt_succ_iff_lt_or_eq.mp hc with hck | rfl
    · rw [Function.update_noteq (by omega : c ≠ k)]
      exact ih (by omega) c hck
    · rw [Function.update_same]
      exact hstep c (by omega) _ (fun c2 hc2 => ih (by omega) c2 hc2)
        (allccFwdGo_untouched step c init c (le_refl c))

/-- The finished forward ecc_pivot table bounds the true forward
eccentricity of every component pivot, provided the caps (the current
forward_high of the pivots) do. -/
theorem allccFwdTable_valid (n : ℕ) (succ : ℕ → List ℕ)
    (wf : GraphWf n succ) (D : SccData) (H : SccHyps n succ D) (fh : ℕ → ℕ)
    (hfh : ∀ c, c < D.numC → eccSup n succ (D.pivot c) ≤ fh (D.pivot c)) :
    ∀ c, c < D.numC →
      eccSup n succ (D.pivot c) ≤ allccFwdTable n succ D fh c := by
  intro c hc
  refine allccFwdGo_valid_abstract _ _ (fun c2 => eccSup n succ (D.pivot c2))
    D.numC ?_ D.numC (le_refl _) c hc
  intro k hk tab htab htabk
  simp only [] at htabk ⊢
  rcases allccInnerF_spec (fh (D.pivot k))
    (fun conn => essDistPivotF n succ D conn.2.1 + 1 +
      essDistPivotB n succ D conn.2.2 + tab conn.1)
    (D.children k) (tab k) with hcap | ⟨hinit, hterms⟩
  · rw [hcap]
    exact hfh k hk
  · refine eccSup_le n succ (D.pivot k) _ (fun w hw => ?_)
    rcases allcc_bound_fwd n succ wf D H k hk w hw with hb | ⟨conn, hconn, hd⟩
    · rw [← htabk] at hb
      omega
    · obtain ⟨hstn, henn, hcst, hcen, harc, hlt⟩ := H.children_valid k hk conn hconn
      have hIH := htab conn.1 hlt
      have hterm := hterms conn hconn
      simp only [] at hterm hIH
      omega

/-- The backward inner loop leaves entries that are never a bridge
target untouched. -/
theorem allccInnerB_untouched (term : ℕ × ℕ × ℕ → (ℕ → ℕ) → ℕ)
    (capOf : ℕ → ℕ) :
    ∀ (l : List (ℕ × ℕ × ℕ)) (tab : ℕ → ℕ) (t : ℕ),
      (∀ conn ∈ l, conn.1 ≠ t) →
      allccInnerB term capOf tab l t = tab t := by
  intro l
  induction l with
  | nil => intro tab t _; rfl
  | cons conn rest ih =>
    intro tab t hno
    simp only [allccInnerB]
    rw [ih _ t (fun c hc => hno c (List.mem_cons_of_mem conn hc))]
    exact Function.update_noteq (Ne.symm (hno conn (List.mem_cons_self conn rest))) _ _

/-- The backward inner loop either reaches the cap of an entry or raises
it above its start value and every term aimed at it; terms are assumed
insensitive to the loop's own updates (they read an entry that is never
a target). -/
theorem allccInnerB_entry (term : ℕ × ℕ × ℕ → (ℕ → ℕ) → ℕ)
    (capOf : ℕ → ℕ) :
    ∀ (l : List (ℕ × ℕ × ℕ)) (tab : ℕ → ℕ),
      (∀ conn ∈ l, ∀ conn2 ∈ l, ∀ (t : ℕ → ℕ) (v : ℕ),
        term conn (Function.update t conn2.1 v) = term conn t) →
      ∀ t, capOf t ≤ allccInnerB term capOf tab l t ∨
        (tab t ≤ allccInnerB term capOf tab l t ∧
          ∀ conn ∈ l, conn.1 = t →
            term conn tab ≤ allccInnerB term capOf tab l t) := by
  intro l
  induction l with
  | nil =>
    intro tab _ t
    exact Or.inr ⟨le_refl _, fun conn h => absurd h (List.not_mem_nil conn)⟩
  | cons conn rest ih =>
    intro tab hstable t
    have hstable' : ∀ c ∈ rest, ∀ c2 ∈ rest, ∀ (t2 : ℕ → ℕ) (v : ℕ),
        term c (Function.update t2 c2.1 v) = term c t2 :=
      fun c hc c2 hc2 => hstable c (List.mem_cons_of_mem conn hc) c2
        (List.mem_cons_of_mem conn hc2)
    simp only [allccInnerB]
    by_cases hcap : capOf conn.1 ≤ max (tab conn.1) (term conn tab)
    · rw [if_pos hcap]
      rcases ih (Function.update tab conn.1 (capOf conn.1)) hstable' t with h | ⟨hle, hall⟩
      · exact Or.inl h
      · by_cases ht : conn.1 = t
        · subst ht
          rw [Function.update_same] at hle
          exact Or.inl hle
        · refine Or.inr ⟨?_, ?_⟩
          · rwa [Function.update_noteq (Ne.symm ht)] at hle
          · intro c hc hct
            rcases List.mem_cons.mp hc with rfl | hc
            · exact absurd hct ht
            · have := hall c hc hct
              rwa [hstable c (List.mem_cons_of_mem conn hc) conn
                (List.mem_cons_self conn rest) tab (capOf conn.1)] at this
    · rw [if_neg hcap]
      rcases ih (Function.update tab conn.1 (max (tab conn.1) (term conn tab)))
        hstable' t with h | ⟨hle, hall⟩
      · exact Or.inl h
      · by_cases ht : conn.1 = t
        · subst ht
          rw [Function.update_same] at hle
          refine Or.inr ⟨le_trans (le_max_left _ _) hle, ?_⟩
          intro c hc hct
          rcases List.mem_cons.mp hc with rfl | hc
          · exact le_trans (le_max_right _ _) hle
          · have := hall c hc hct
            rwa [hstable c (List.mem_cons_of_mem conn hc) conn
              (List.mem_cons_self conn rest) tab _] at this
        · refine Or.inr ⟨?_, ?_⟩
          · rwa [Function.update_noteq (Ne.symm ht)] at hle
          · intro c hc hct
            rcases List.mem_cons.mp hc with rfl | hc
            · exact absurd hct ht
            · have := hall c hc hct
              rwa [hstable c (List.mem_cons_of_mem conn hc) conn
                (List.mem_cons_self conn rest) tab _] at this

/-- The master invariant of the descending backward table loop: entries
at or above the cursor already bound the true backward pivot
eccentricities, entries below are capped or dominate their initial value
and the term of every already-processed parent bridge; the finished
table then bounds every entry. -/
theorem allccBwdGo_master (n : ℕ) (succ : ℕ → List ℕ) (wf : GraphWf n succ)
    (D : SccData) (H : SccHyps n succ D) (bh : ℕ → ℕ)
    (hbh : ∀ c, c < D.numC →
      eccSup n (predList n succ) (D.pivot c) ≤ bh (D.pivot c)) :
    ∀ k, k ≤ D.numC → ∀ tab : ℕ → ℕ,
      (∀ c, k ≤ c → c < D.numC →
        eccSup n (predList n succ) (D.pivot c) ≤ tab c) →
      (∀ c, c < k →
        bh (D.pivot c) ≤ tab c ∨
        (essEccPivotB0 n succ D c ≤ tab c ∧
          ∀ c2, k ≤ c2 → c2 < D.numC → ∀ conn ∈ D.children c2, conn.1 = c →
            essDistPivotF n succ D conn.2.1 + 1 +
              essDistPivotB n succ D conn.2.2 +
              eccSup n (predList n succ) (D.pivot c2) ≤ tab c)) →
      ∀ c, c < D.numC →
        eccSup n (predList n succ) (D.pivot c) ≤
          allccBwdGo (fun c2 tab2 => allccInnerB
            (fun conn t => essDistPivotF n succ D conn.2.1 + 1 +
              essDistPivotB n succ D conn.2.2 + t c2)
            (fun tc => bh (D.pivot tc)) tab2 (D.children c2)) k tab c := by
  intro k
  induction k with
  | zero =>
    intro _ tab h1 _ c hc
    exact h1 c (Nat.zero_le c) hc
  | succ k ih =>
    intro hk tab h1 h2 c hc
    simp only [allccBwdGo]
    have hkN : k < D.numC := by omega
    have htgt : ∀ conn ∈ D.children k, conn.1 < k :=
      fun conn hconn => (H.children_valid k hkN conn hconn).2.2.2.2.2
    have hstable : ∀ conn ∈ D.children k, ∀ conn2 ∈ D.children k,
        ∀ (t : ℕ → ℕ) (v : ℕ),
        (fun conn t => essDistPivotF n succ D conn.2.1 + 1 +
          essDistPivotB n succ D conn.2.2 + t k) conn
            (Function.update t conn2.1 v) =
        (fun conn t => essDistPivotF n succ D conn.2.1 + 1 +
          essDistPivotB n succ D conn.2.2 + t k) conn t := by
      intro conn _ conn2 hconn2 t v
      simp only []
      rw [Function.update_noteq (by have := htgt conn2 hconn2; omega : k ≠ conn2.1)]
    have huntouched : ∀ c2, k ≤ c2 →
        allccInnerB
          (fun conn t => essDistPivotF n succ D conn.2.1 + 1 +
            essDistPivotB n succ D conn.2.2 + t k)
          (fun tc => bh (D.pivot tc)) tab (D.children k) c2 = tab c2 := by
      intro c2 hc2
      exact allccInnerB_untouched _ _ (D.children k) tab c2
        (fun conn hconn => by have := htgt conn hconn; omega)
    have hEk : eccSup n (predList n succ) (D.pivot k) ≤ tab k := by
      rcases h2 k (by omega) with hcapk | ⟨hinitk, htermsk⟩
      · exact le_trans (hbh k hkN) hcapk
      · refine eccSup_le n (predList n succ) (D.pivot k) _ (fun w hw => ?_)
        rcases allcc_bound_bwd n succ wf D H k hkN w hw with
          hb | ⟨c2, hc2N, hkc2, conn, hconn, htc, hd⟩
        · omega
        · have := htermsk c2 (by omega) hc2N conn hconn htc
          omega
    refine ih (by omega) _ ?_ ?_ c hc
    · intro c2 hkc2 hc2N
      rw [huntouched c2 hkc2]
      rcases Nat.eq_or_lt_of_le hkc2 with heq | hlt
      · rw [← heq]
        exact hEk
      · exact h1 c2 (by omega) hc2N
    · intro c2 hc2k
      rcases allccInnerB_entry
        (fun conn t => essDistPivotF n succ D conn.2.1 + 1 +
          essDistPivotB n succ D conn.2.2 + t k)
        (fun tc => bh (D.pivot tc)) (D.children k) tab hstable c2 with
        hcap2 | ⟨hmono, hterms2⟩
      · exact Or.inl hcap2
      · rcases h2 c2 (Nat.lt_succ_of_lt hc2k) with hcapold | ⟨hinit, hterms⟩
        · exact Or.inl (le_trans hcapold hmono)
        · refine Or.inr ⟨le_trans hinit hmono, ?_⟩
          intro c3 hkc3 hc3N conn hconn htc
          rcases Nat.eq_or_lt_of_le hkc3 with heq | hlt
          · subst heq
            have ht2 := hterms2 conn hconn htc
            simp only [] at ht2
            exact le_trans (Nat.add_le_add_left hEk _) ht2
          · exact le_trans (hterms c3 hlt hc3N conn hconn htc) hmono

/-- The finished backward ecc_pivot table bounds the true backward
eccentricity of every component pivot, provided the caps (the current
backward_high of the pivots) do. -/
theorem allccBwdTable_valid (n : ℕ) (succ : ℕ → List ℕ)
    (wf : GraphWf n succ) (D : SccData) (H : SccHyps n succ D) (bh : ℕ → ℕ)
    (hbh : ∀ c, c < D.numC →
      eccSup n (predList n succ) (D.pivot c) ≤ bh (D.pivot c)) :
    ∀ c, c < D.numC →
      eccSup n (predList n succ) (D.pivot c) ≤ allccBwdTable n succ D bh c := by
  intro c hc
  refine allccBwdGo_master n succ wf D H bh hbh D.numC (le_refl _) _ ?_ ?_ c hc
  · intro c2 h1 h2
    omega
  · intro c2 hc2
    refine Or.inr ⟨le_refl _, ?_⟩
    intro c3 h1 h2
    omega

theorem essValid_allcc (n : ℕ) (succ : ℕ → List ℕ) (wf : GraphWf n succ)
    (D : SccData) (H : SccHyps n succ D) (st : EssBounds)
    (hval : EssValid n succ st) :
    EssValid n succ (essAllCCStep n succ D st) := by
  intro v hv
  obtain ⟨h1, h2, h3, h4⟩ := hval v hv
  simp only [essAllCCStep]
  have hc : D.comp v < D.numC := H.comp_lt v hv
  have hp : D.pivot (D.comp v) < n := H.pivot_lt _ hc
  have hpc : D.comp (D.pivot (D.comp v)) = D.comp v := H.pivot_comp _ hc
  have hmut := (H.comp_iff (D.pivot (D.comp v)) v hp hv).mp hpc
  refine ⟨h1, le_min h2 ?_, h3, le_min h4 ?_⟩
  · have hdvp_eq : distN n succ v (D.pivot (D.comp v)) =
        distN n (predList n succ) (D.pivot (D.comp v)) v :=
      dist_symm_pred n succ wf v (D.pivot (D.comp v)) hv hp hmut.2
    have hdvp := dist_le_distPivotB n succ wf D H v hv hc
    have htab := allccFwdTable_valid n succ wf D H st.forwardHigh
      (fun c hc2 => (hval (D.pivot c) (H.pivot_lt c hc2)).2.1) (D.comp v) hc
    have hecc : eccSup n succ v ≤
        distN n succ v (D.pivot (D.comp v)) + eccSup n succ (D.pivot (D.comp v)) := by
      refine eccSup_le n succ v _ (fun w hw => ?_)
      have hwp : w ∈ ball succ (D.pivot (D.comp v)) n :=
        ball_mem_n n succ wf _ hp w _
          (ball_trans succ _ v w n n hmut.1 hw)
      have htri := dist_triangle n succ wf v (D.pivot (D.comp v)) w hv hp
        hmut.2 hwp
      have := dist_le_eccSup n succ (D.pivot (D.comp v)) w hwp
      omega
    omega
  · have hdvp_eq : distN n (predList n succ) v (D.pivot (D.comp v)) =
        distN n succ (D.pivot (D.comp v)) v :=
      (dist_symm_pred n succ wf (D.pivot (D.comp v)) v hp hv hmut.1).symm
    have hdvp := dist_le_distPivotF n succ wf D H v hv hc
    have htab := allccBwdTable_valid n succ wf D H st.backwardHigh
      (fun c hc2 => (hval (D.pivot c) (H.pivot_lt c hc2)).2.2.2) (D.comp v) hc
    have hpv : D.pivot (D.comp v) ∈ ball (predList n succ) v n :=
      ball_symm_pred n succ wf n (D.pivot (D.comp v)) v hp hmut.1
    have hvp : v ∈ ball (predList n succ) (D.pivot (D.comp v)) n :=
      ball_symm_pred n succ wf n v (D.pivot (D.comp v)) hv hmut.2
    have hecc : eccSup n (predList n succ) v ≤
        distN n (predList n succ) v (D.pivot (D.comp v)) +
          eccSup n (predList n succ) (D.pivot (D.comp v)) := by
      refine eccSup_le n (predList n succ) v _ (fun w hw => ?_)
      have hwp : w ∈ ball (predList n succ) (D.pivot (D.comp v)) n :=
        ball_mem_n n (predList n succ) (predList_wf n succ) _ hp w _
          (ball_trans (predList n succ) _ v w n n hvp hw)
      have htri := dist_triangle n (predList n succ) (predList_wf n succ) v
        (D.pivot (D.comp v)) w hv hp hpv hwp
      have := dist_le_eccSup n (predList n succ) (D.pivot (D.comp v)) w hwp
      omega
    omega

/-- C2: for every node v and at every point between ExactSumSweep steps
(after setup, and after any sequence of forward BFS steps, backward BFS
steps and AllCCUpperBound steps), the bound arrays satisfy
forward_low[v] <= forward_high[v] and backward_low[v] <= backward_high[v];
proven via the semantic invariant that the bounds always bracket the
true forward and backward eccentricities. -/
theorem ess_low_le_high (n : ℕ) (succ : ℕ → List ℕ) (wf : GraphWf n succ)
    (D : SccData) (H : SccHyps n succ D) (st : EssBounds)
    (hst : EssReachable n succ D st) :
    ∀ v, v < n → st.forwardLow v ≤ st.forwardHigh v ∧
      st.backwardLow v ≤ st.backwardHigh v := by
  have hvalid : EssValid n succ st := by
    induction hst with
    | setup => exact essValid_setup n succ wf
    | fwd st2 s hs h ih => exact essValid_fwd n succ wf st2 ih s hs
    | bwd st2 s hs h ih => exact essValid_bwd n succ wf st2 ih s hs
    | allcc st2 h ih => exact essValid_allcc n succ wf D H st2 ih
  intro v hv
  obtain ⟨h1, h2, h3, h4⟩ := hvalid v hv
  exact ⟨le_trans h1 h2, le_trans h3 h4⟩

/-- A concrete two-node graph with the single arc 0 -> 1, used to
instantiate the ExactSumSweep invariant. -/
def essWitSucc : ℕ → List ℕ := fun u => if u = 0 then [1] else []

/-- Its SCC data: Tarjan emits the component of node 1 first (id 0),
then the component of node 0 (id 1); the one DAG edge is the bridge
(target 0, start 0, end 1). -/
def essWitScc : SccData :=
  { numC := 2
    comp := fun v => if v = 0 then 1 else 0
    children := fun c => if c = 1 then [(0, 0, 1)] else []
    pivot := fun c => if c = 1 then 0 else 1 }

theorem essWit_wf : GraphWf 2 essWitSucc := by
  intro v hv u hu
  simp only [essWitSucc] at hu
  split_ifs at hu
  · simp only [List.mem_singleton] at hu
    omega
  · simp at hu

theorem essWit_hyps : SccHyps 2 essWitSucc essWitScc := by
  refine ⟨?_, ?_, ?_, ?_, ?_, ?_⟩
  · intro v hv
    interval_cases v <;> decide
  · intro u v hu hv
    interval_cases u <;> interval_cases v <;> decide
  · intro c hc
    have hc2 : c < 2 := hc
    interval_cases c <;> decide
  · intro c hc
    have hc2 : c < 2 := hc
    interval_cases c <;> decide
  · intro c hc conn hconn
    have hc2 : c < 2 := hc
    interval_cases c
    · simp [essWitScc] at hconn
    · have hconn2 : conn ∈ [((0 : ℕ), (0 : ℕ), (1 : ℕ))] := hconn
      rw [List.mem_singleton] at hconn2
      subst hconn2
      decide
  · intro u x hu hx hne
    interval_cases u
    · have hx2 : x ∈ [1] := hx
      rw [List.mem_singleton] at hx2
      subst hx2
      exact ⟨(0, 0, 1), by decide, by decide⟩
    · have hx2 : x ∈ ([] : List ℕ) := hx
      simp at hx2

/-- Witness for C2: the invariant holds concretely for node 1 of the
two-node graph after a forward BFS from 0 followed by an
AllCCUpperBound step. -/
theorem ess_low_le_high_witness :
    (essAllCCStep 2 essWitSucc essWitScc
        (essForwardStep 2 essWitSucc (essSetup 2) 0)).forwardLow 1 ≤
      (essAllCCStep 2 essWitSucc essWitScc
        (essForwardStep 2 essWitSucc (essSetup 2) 0)).forwardHigh 1 ∧
    (essAllCCStep 2 essWitSucc essWitScc
        (essForwardStep 2 essWitSucc (essSetup 2) 0)).backwardLow 1 ≤
      (essAllCCStep 2 essWitSucc essWitScc
        (essForwardStep 2 essWitSucc (essSetup 2) 0)).backwardHigh 1 :=
  ess_low_le_high 2 essWitSucc essWit_wf essWitScc essWit_hyps _
    (EssReachable.allcc _
      (EssReachable.fwd _ 0 (by decide) (EssReachable.setup)))
    1 (by decide)

end WebgraphAlgo
